import Mathlib

/-!
Verification of the FFC uflacs expression-graph module
(`ffc/ir/uflacs/analysis/graph.py`): the unique post-order enumerator,
the `ExpressionGraph` multi-edge container, `build_graph_vertices`,
`rebuild_with_scalar_subexpressions` and `build_scalar_graph`.

The external symbolic representation (UFL) is embedded as a small
inductive expression type exposing exactly the interface the module
uses: terminal / terminal-modifier classification, ordered operand
lists, tensor shape, free indices, and the special `MultiIndex` and
`Label` terminal kinds.  Object identity of the input representation
is modelled by structural equality of the inductive terms (the
representation caches structurally equal objects, so physically shared
sub-objects are exactly the equal subterms).
-/

/-- Kind tag of a terminal node of the expression representation.
`MultiIndex` and `Label` are the recognized special terminal classes. -/
inductive TKind where
  | multiIndex
  | label
  | plain
deriving DecidableEq, Repr

/-- Kind tag of a non-terminal node: either a terminal modifier
(indexing/derivative/restriction wrapper) or a plain operator.
The numeric id on the node distinguishes different operators. -/
inductive OKind where
  | terminalModifier
  | plainOper
deriving DecidableEq, Repr

/-- Embedded expression node of the external symbolic representation.
`term kind id shape freeIndices` is a terminal (empty operand list, as
in UFL); `oper kind id shape freeIndices operands` is a non-terminal
with its ordered operand list. -/
inductive Expr where
  | term : TKind → Nat → List Nat → List Nat → Expr
  | oper : OKind → Nat → List Nat → List Nat → List Expr → Expr
deriving Repr

mutual

/-- Boolean structural equality on expressions. -/
def exprBeq : Expr → Expr → Bool
  | .term k i sh fi, .term k2 i2 sh2 fi2 =>
      k == k2 && i == i2 && sh == sh2 && fi == fi2
  | .oper k i sh fi os, .oper k2 i2 sh2 fi2 os2 =>
      k == k2 && i == i2 && sh == sh2 && fi == fi2 && exprListBeq os os2
  | _, _ => false

/-- Boolean structural equality on lists of expressions. -/
def exprListBeq : List Expr → List Expr → Bool
  | [], [] => true
  | a :: as, b :: bs => exprBeq a b && exprListBeq as bs
  | _, _ => false

end

mutual

theorem exprBeq_iff : ∀ a b : Expr, exprBeq a b = true ↔ a = b
  | .term k i sh fi, .term k2 i2 sh2 fi2 => by
      simp [exprBeq, and_assoc]
  | .term _ _ _ _, .oper _ _ _ _ _ => by simp [exprBeq]
  | .oper _ _ _ _ _, .term _ _ _ _ => by simp [exprBeq]
  | .oper k i sh fi os, .oper k2 i2 sh2 fi2 os2 => by
      simp [exprBeq, exprListBeq_iff os os2, and_assoc]

theorem exprListBeq_iff : ∀ as bs : List Expr, exprListBeq as bs = true ↔ as = bs
  | [], [] => by simp [exprListBeq]
  | [], _ :: _ => by simp [exprListBeq]
  | _ :: _, [] => by simp [exprListBeq]
  | a :: as, b :: bs => by
      simp [exprListBeq, exprBeq_iff a b, exprListBeq_iff as bs]

end

instance : DecidableEq Expr :=
  fun a b => decidable_of_iff (exprBeq a b = true) (exprBeq_iff a b)

/-- `e._ufl_is_terminal_` of the representation. -/
def Expr.isTerminal : Expr → Bool
  | .term .. => true
  | .oper .. => false

/-- `e._ufl_is_terminal_modifier_` of the representation. -/
def Expr.isTerminalModifier : Expr → Bool
  | .oper .terminalModifier .. => true
  | _ => false

/-- `e.ufl_free_indices` of the representation. -/
def Expr.freeIndices : Expr → List Nat
  | .term _ _ _ fi => fi
  | .oper _ _ _ fi _ => fi

/-- `e.ufl_shape` of the representation. -/
def Expr.shape : Expr → List Nat
  | .term _ _ sh _ => sh
  | .oper _ _ sh _ _ => sh

/-- `e.ufl_operands` of the representation (terminals have none). -/
def Expr.operands : Expr → List Expr
  | .term .. => []
  | .oper _ _ _ _ ops => ops

/-- `isinstance(e, ufl.classes.MultiIndex)`. -/
def Expr.isMultiIndex : Expr → Bool
  | .term .multiIndex .. => true
  | _ => false

/-- `isinstance(e, ufl.classes.Label)`. -/
def Expr.isLabel : Expr → Bool
  | .term .label .. => true
  | _ => false

theorem sizeOf_mem_operands {o : Expr} {k i} {sh fi : List Nat} {ops : List Expr}
    (h : o ∈ ops) : sizeOf o < sizeOf (Expr.oper k i sh fi ops) := by
  have h1 : sizeOf o < sizeOf ops := List.sizeOf_lt_of_mem h
  simp only [Expr.oper.sizeOf_spec]
  omega

theorem sizeOf_mem_operands' {o e : Expr} (h : o ∈ e.operands) :
    sizeOf o < sizeOf e := by
  cases e with
  | term => simp [Expr.operands] at h
  | oper k i sh fi ops => exact sizeOf_mem_operands h

/-! ## Association lists: the embedding of Python dicts

Python dicts preserve insertion order; assignment to an existing key
updates the value in place, assignment to a new key appends at the
end.  They are embedded as association lists with exactly those
update semantics. -/

/-- Dict lookup `d[k]` / membership `k in d` (first matching key). -/
def alookup [DecidableEq κ] (k : κ) : List (κ × ν) → Option ν
  | [] => none
  | (k2, v) :: rest => if k2 = k then some v else alookup k rest

/-- Dict assignment `d[k] = v`: update in place if the key exists,
otherwise append a new entry at the end. -/
def aset [DecidableEq κ] (k : κ) (v : ν) : List (κ × ν) → List (κ × ν)
  | [] => [(k, v)]
  | (k2, v2) :: rest => if k2 = k then (k2, v) :: rest else (k2, v2) :: aset k v rest

/-- Dict update `d[k] = f(d[k])` of an existing entry (no-op when the
key is absent). -/
def amodify [DecidableEq κ] (k : κ) (f : ν → ν) : List (κ × ν) → List (κ × ν)
  | [] => []
  | (k2, v) :: rest => if k2 = k then (k2, f v) :: rest else (k2, v) :: amodify k f rest

/-- Dict update `d[k] += [x]` on a dict of lists: `none` models the
`KeyError` raised when the key is absent. -/
def dictAppend [DecidableEq κ] (k : κ) (x : α) :
    List (κ × List α) → Option (List (κ × List α))
  | [] => none
  | (k2, l) :: rest =>
      if k2 = k then some ((k2, l ++ [x]) :: rest)
      else (dictAppend k x rest).map ((k2, l) :: ·)

/-- The Python exceptions raised by the module.  The two `RuntimeError`s
of `rebuild_with_scalar_subexpressions` are distinguished by their
message ("Expecting single symbol for scalar valued modified terminal."
and "Expecting one symbol for each expression."). -/
inductive PyErr where
  | keyError
  | indexError
  | assertionError
  | attributeError
  | runtimeSingleSymbol
  | runtimeSymbolCount
deriving DecidableEq, Repr

/-! ## The `ExpressionGraph` container (`graph.py` lines 23-50) -/

/-- `ExpressionGraph`: a directed multi-edge graph that allows multiple
edges between the same nodes and respects the insertion order of nodes
and edges.  `κ` is the node-key type, `π` the node-payload type. -/
structure ExpressionGraph (κ π : Type) where
  nodes : List (κ × π) := []
  out_edges : List (κ × List κ) := []
  in_edges : List (κ × List κ) := []
deriving Repr, DecidableEq

/-- `ExpressionGraph.number_of_nodes`. -/
def ExpressionGraph.number_of_nodes (g : ExpressionGraph κ π) : Nat :=
  g.nodes.length

/-- `ExpressionGraph.add_node(key, **kwargs)`: add a node with payload,
resetting its out-edge and in-edge lists to empty. -/
def ExpressionGraph.add_node [DecidableEq κ] (g : ExpressionGraph κ π) (key : κ)
    (payload : π) : ExpressionGraph κ π :=
  { nodes := aset key payload g.nodes
    out_edges := aset key [] g.out_edges
    in_edges := aset key [] g.in_edges }

/-- `ExpressionGraph.add_edge(node1, node2)`: raise `KeyError` when either
endpoint is not a registered node, otherwise append `node2` to `node1`'s
out-edges and `node1` to `node2`'s in-edges.  The result is the state of
the (in-place mutated) graph after the call together with the raised
error, if any; the membership check precedes all mutation. -/
def ExpressionGraph.add_edge [DecidableEq κ] (g : ExpressionGraph κ π)
    (node1 node2 : κ) : ExpressionGraph κ π × Option PyErr :=
  if (alookup node1 g.nodes).isNone ∨ (alookup node2 g.nodes).isNone then
    (g, some .keyError)
  else
    match dictAppend node1 node2 g.out_edges with
    | none => (g, some .keyError)
    | some oe =>
        match dictAppend node2 node1 g.in_edges with
        | none => ({ g with out_edges := oe }, some .keyError)
        | some ie => ({ g with out_edges := oe, in_edges := ie }, none)

/-! ## The unique post-order enumerator (`graph.py` lines 193-218)

`_count_nodes_with_unique_post_traversal` runs an iterative depth-first
traversal with an explicit stack of (node, remaining-operands) frames.
A frame's operands are scanned left to right; an operand not yet in the
accumulated map is pushed (and processed completely before the scan
resumes), an operand already in the map is skipped.  When all operands
are exhausted the node itself is appended to the map with the next
dense index, unless its class is `Label` or in the skip tuple.  The
recursive functions below perform the same traversal: `visitOps` is the
operand scan of one frame, `visit` is the processing of one pushed
frame. -/

/-- `getops(e)`: the operand list the traversal descends into — empty
for terminals, and empty for terminal modifiers without free indices
when `skip_terminal_modifiers` is set. -/
def getops (skipTM : Bool) (e : Expr) : List Expr :=
  if e.isTerminal ∨ (skipTM ∧ e.isTerminalModifier ∧ e.freeIndices = []) then []
  else e.operands

/-- `isinstance(expr, (ufl.classes.Label,) + skip)`: the node classes
never entered into the map. -/
def skippedCls (skip : Expr → Bool) (e : Expr) : Bool :=
  e.isLabel || skip e

theorem sizeOf_getops (skipTM : Bool) (e : Expr) : sizeOf (getops skipTM e) < sizeOf e := by
  cases e with
  | term k i sh fi =>
      simp only [getops, Expr.isTerminal, Expr.operands]
      simp only [Expr.term.sizeOf_spec]
      have h1 : 1 ≤ sizeOf sh := by cases sh <;> simp <;> omega
      split <;> simp <;> omega
  | oper k i sh fi ops =>
      simp only [getops, Expr.operands, Expr.oper.sizeOf_spec]
      have h1 : 1 ≤ sizeOf sh := by cases sh <;> simp <;> omega
      have h2 : 1 ≤ sizeOf ops := by cases ops <;> simp <;> omega
      split <;> simp [Expr.isTerminal] <;> omega

mutual

/-- Processing of one pushed frame `(e, getops(e))` of the traversal
stack: scan the operands, then append `e` to the map with the next
dense index unless `e`'s class is skipped. -/
def visit (skip : Expr → Bool) (skipTM : Bool) (e : Expr) (m : List (Expr × Nat)) :
    List (Expr × Nat) :=
  let m2 := visitOps skip skipTM (getops skipTM e) m
  if skippedCls skip e then m2 else m2 ++ [(e, m2.length)]
termination_by sizeOf e
decreasing_by exact sizeOf_getops skipTM e

/-- Left-to-right operand scan of one frame: an operand already in the
map is skipped, otherwise it is pushed and processed completely. -/
def visitOps (skip : Expr → Bool) (skipTM : Bool) :
    List Expr → List (Expr × Nat) → List (Expr × Nat)
  | [], m => m
  | o :: os, m =>
      visitOps skip skipTM os
        (if (alookup o m).isSome then m else visit skip skipTM o m)
termination_by l => sizeOf l
decreasing_by
  all_goals (simp only [List.cons.sizeOf_spec]; omega)

end

/-- `_count_nodes_with_unique_post_traversal(expr, skip, skip_terminal_modifiers)`:
yields a map entry for each node reachable from `expr`, child before
parent, never visiting a node twice. -/
def count_nodes_with_unique_post_traversal (expr : Expr) (skip : Expr → Bool)
    (skipTM : Bool) : List (Expr × Nat) :=
  visit skip skipTM expr []

/-! ## `build_graph_vertices` (`graph.py` lines 53-71) -/

/-- The node payload built by `build_graph_vertices`:
`expression=v` plus the `target` flag set on the root's image. -/
structure Payload where
  expression : Expr
  target : Bool := false
deriving DecidableEq, Repr

/-- The result of `build_graph_vertices`: the `ExpressionGraph` with
the expression-to-index map `G.e2i` attached to it. -/
structure ExprGraph where
  e2i : List (Expr × Nat) := []
  G : ExpressionGraph Nat Payload := {}
deriving Repr, DecidableEq

/-- `build_graph_vertices(expression, skip, skip_terminal_modifiers)`:
count unique expression nodes, add a graph node per index in index
order, and flag the vertex of the input expression root as the target.
`none` models the `KeyError` raised by `G.e2i[expression]` when the
root is of a skipped class. -/
def build_graph_vertices (expression : Expr) (skip : Expr → Bool) (skipTM : Bool) :
    Option ExprGraph :=
  let e2i := count_nodes_with_unique_post_traversal expression skip skipTM
  let GV := (e2i.mergeSort (fun a b => decide (a.2 ≤ b.2))).map Prod.fst
  let G0 := GV.enum.foldl (fun g iv => g.add_node iv.1 ⟨iv.2, false⟩)
      ({} : ExpressionGraph Nat Payload)
  match alookup expression e2i with
  | none => none
  | some vt =>
      some ⟨e2i, { G0 with nodes := amodify vt (fun p => { p with target := true }) G0.nodes }⟩

/-! ## Interfaces of the collaborating modules not present in the
source tree (`modified_terminals.py`, `reconstruct.py`,
`valuenumbering.py`, and UFL's component extraction) -/

mutual

/-- Modelled from the spec: `is_modified_terminal` from the missing
`analysis/modified_terminals.py` — a terminal, or a leaf value combined
with non-branching terminal-modifier wrappers. -/
def is_modified_terminal : Expr → Bool
  | .term .. => true
  | .oper .terminalModifier _ _ _ ops => is_modified_terminal_list ops
  | .oper .plainOper .. => false

/-- All members of an operand list are modified terminals. -/
def is_modified_terminal_list : List Expr → Bool
  | [] => true
  | o :: os => is_modified_terminal o && is_modified_terminal_list os

end

/-- Modelled from the spec: `ufl.permutation.compute_indices(shape)` —
the canonical row-major enumeration of the multi-indices of a shape
(first index slowest). -/
def compute_indices : List Nat → List (List Nat)
  | [] => [[]]
  | n :: rest => (List.range n).flatMap fun i => (compute_indices rest).map (i :: ·)

/-- Modelled from the spec: the representation's component-extraction
operation `expr[c]` (node, multi-index) → scalar node — a scalar
terminal-modifier wrapper around the node, carrying the multi-index
encoded in its id. -/
def component (e : Expr) (c : List Nat) : Expr :=
  .oper .terminalModifier (c.foldl (fun a x => a * 2 + x + 1) 0) [] [] [e]

/-- Modelled from the spec: the output interface of the `ValueNumberer`
from the missing `analysis/valuenumbering.py` — for every graph node a
sequence of symbols, one per scalar component, and the total count of
distinct symbols. -/
structure ValueNumbering where
  V_symbols : List (List Nat)
  symbol_count : Nat

/-- Modelled from the spec: the interface of `reconstruct` from the
missing `analysis/reconstruct.py` — a pure function mapping an operator
node and the per-operand tuples of previously built scalar expressions
to the tuple of reconstructed scalar expressions of the node. -/
def Reconstruct : Type := Expr → List (List (Option Expr)) → List Expr

/-! ## `rebuild_with_scalar_subexpressions` (`graph.py` lines 107-190) -/

def liftO (e : PyErr) : Option α → Except PyErr α
  | some a => .ok a
  | none => .error e

/-- `all(W[s] is not None for s in vs)`: short-circuiting scan of the
symbol table; accessing an out-of-range symbol raises `IndexError`. -/
def allFilled (W : Array (Option Expr)) : List Nat → Except PyErr Bool
  | [] => .ok true
  | s :: rest =>
      match W.get? s with
      | none => .error .indexError
      | some none => .ok false
      | some (some _) => allFilled W rest

/-- Lines 157-166: the per-operand symbol sequences `sops` — an empty
sequence for a `MultiIndex` operand, otherwise `V_symbols[G.e2i[vop]]`. -/
def computeSops (Vsym : List (List Nat)) (e2i : List (Expr × Nat)) :
    List Expr → Except PyErr (List (List Nat))
  | [] => .ok []
  | vop :: rest =>
      if vop.isMultiIndex then do
        let r ← computeSops Vsym e2i rest
        .ok ([] :: r)
      else do
        let k ← liftO .keyError (alookup vop e2i)
        let so ← liftO .indexError (Vsym.get? k)
        let r ← computeSops Vsym e2i rest
        .ok (so :: r)

/-- `tuple(W[k] for k in so)`: the stored scalar expressions of one
operand's symbols (strict indexing into `W`). -/
def readW (W : Array (Option Expr)) : List Nat → Except PyErr (List (Option Expr))
  | [] => .ok []
  | k :: rest => do
      let w ← liftO .indexError (W.get? k)
      let r ← readW W rest
      .ok (w :: r)

/-- `wops = [tuple(W[k] for k in so) for so in sops]`: the stored
scalar expressions of all operands. -/
def computeWops (W : Array (Option Expr)) :
    List (List Nat) → Except PyErr (List (List (Option Expr)))
  | [] => .ok []
  | so :: rest => do
      let wo ← readW W so
      let r ← computeWops W rest
      .ok (wo :: r)

/-- Lines 179-185: store each new scalar subexpression in `W` at the
index of its symbol.  Only empty slots are written; a filled slot is
accepted only when it was just filled under the same symbol in this
very loop (`assert s in handled`, the symmetry-alias self-check),
otherwise the assertion fails. -/
def storeGo : List (Nat × Expr) → Array (Option Expr) → List Nat →
    Except PyErr (Array (Option Expr))
  | [], W, _ => .ok W
  | (s, w) :: rest, W, handled =>
      match W.get? s with
      | none => .error .indexError
      | some none => storeGo rest (W.setD s (some w)) (s :: handled)
      | some (some _) =>
          if s ∈ handled then storeGo rest W handled else .error .assertionError

/-- `for s, w in zip(vs, ws): ...` with `handled = set()` initially. -/
def storeSymbols (W : Array (Option Expr)) (vs : List Nat) (ws : List Expr) :
    Except PyErr (Array (Option Expr)) :=
  storeGo (vs.zip ws) W []

/-- The body of the `for i, v in G.nodes.items()` loop of
`rebuild_with_scalar_subexpressions` (lines 130-185) for one node. -/
def processNode (recon : Reconstruct) (Vsym : List (List Nat))
    (e2i : List (Expr × Nat)) (W : Array (Option Expr)) (i : Nat) (p : Payload) :
    Except PyErr (Array (Option Expr)) := do
  let expr := p.expression
  let vs ← liftO .indexError (Vsym.get? i)
  let filled ← allFilled W vs
  if filled then .ok W
  else do
    let ws ←
      if is_modified_terminal expr then
        if expr.shape ≠ [] then
          .ok ((compute_indices expr.shape).map (component expr))
        else if vs.length ≠ 1 then .error .runtimeSingleSymbol
        else .ok [expr]
      else do
        let sops ← computeSops Vsym e2i expr.operands
        let wops ← computeWops W sops
        let ws := recon expr wops
        if vs.length ≠ ws.length then .error .runtimeSymbolCount
        else .ok ws
    storeSymbols W vs ws

/-- `rebuild_with_scalar_subexpressions(G)`: compute symbols with the
value numberer, then walk the graph nodes in order, building the
symbol table `W`; the result is `W[V_symbols[-1][0]]` (which Python
returns even when it is `None`). -/
def rebuild_with_scalar_subexpressions (recon : Reconstruct)
    (vn : ExprGraph → ValueNumbering) (G : ExprGraph) :
    Except PyErr (Option Expr) := do
  let nums := vn G
  let Vsym := nums.V_symbols
  let W0 : Array (Option Expr) := Array.mkArray nums.symbol_count none
  let W ← G.G.nodes.foldlM (fun W ip => processNode recon Vsym G.e2i W ip.1 ip.2) W0
  let lastRow ← liftO .indexError Vsym.getLast?
  let s ← liftO .indexError (lastRow.get? 0)
  let w ← liftO .indexError (W.get? s)
  .ok w

/-! ## `build_scalar_graph` (`graph.py` lines 74-104) -/

/-- The condition of line 92: terminal, or terminal modifier without
free indices — such vertices get no dependency edges. -/
def noDeps (e : Expr) : Bool :=
  e.isTerminal || (e.isTerminalModifier && e.freeIndices == [])

/-- `G.e2i[o]` for each operand `o` (line 97). -/
def operandIdxs (e2i : List (Expr × Nat)) : List Expr → Except PyErr (List Nat)
  | [] => .ok []
  | o :: rest => do
      let k ← liftO .keyError (alookup o e2i)
      let r ← operandIdxs e2i rest
      .ok (k :: r)

/-- The `V_deps.append(...)` loop body over the node list (lines 90-98). -/
def vdepsRows (e2i : List (Expr × Nat)) :
    List (Nat × Payload) → Except PyErr (List (List Nat))
  | [] => .ok []
  | iv :: rest => do
      let row ←
        if noDeps iv.2.expression then .ok []
        else operandIdxs e2i iv.2.expression.operands
      let r ← vdepsRows e2i rest
      .ok (row :: r)

/-- Lines 89-98: the operand index list of every vertex. -/
def computeVDeps (g : ExprGraph) : Except PyErr (List (List Nat)) :=
  vdepsRows g.e2i g.G.nodes

/-- One `G.add_edge(i, j)` call inside the `Except` error monad. -/
def addEdgeE (g : ExpressionGraph Nat Payload) (i j : Nat) :
    Except PyErr (ExpressionGraph Nat Payload) :=
  match g.add_edge i j with
  | (g2, none) => .ok g2
  | (_, some e) => .error e

/-- `build_scalar_graph(expression)`: build vertices over the input
(skipping `MultiIndex` nodes), rebuild with scalar subexpressions,
re-build vertices over the scalar expression (treating terminal
modifiers as units), and insert the dependency edges. -/
def build_scalar_graph (recon : Reconstruct) (vn : ExprGraph → ValueNumbering)
    (expression : Expr) : Except PyErr ExprGraph := do
  let G1 ← liftO .keyError (build_graph_vertices expression (fun e => e.isMultiIndex) false)
  let se? ← rebuild_with_scalar_subexpressions recon vn G1
  let se ← liftO .attributeError se?
  let G2 ← liftO .keyError (build_graph_vertices se (fun _ => false) true)
  let V_deps ← computeVDeps G2
  let Gfin ← V_deps.enum.foldlM
      (fun g ie => ie.2.foldlM (fun g j => addEdgeE g ie.1 j) g) G2.G
  .ok { G2 with G := Gfin }

/-! ## Spec-modelled collaborators used for concrete runs -/

/-- Modelled from the spec: the number of scalar components implied by
a node's shape (empty shape → exactly one component). -/
def numComponents (sh : List Nat) : Nat := sh.foldl (· * ·) 1

/-- Modelled from the spec: a `ValueNumberer` (the missing
`analysis/valuenumbering.py`) assigning fresh symbols — one per scalar
component of every node, in node order; multi-index nodes carry no
symbols.  The symmetry-alias sharing of the spec never triggers on the
concrete inputs used here, which contain no symmetric tensors. -/
def specValueNumberer (G : ExprGraph) : ValueNumbering :=
  let step := fun (acc : List (List Nat) × Nat) (iv : Nat × Payload) =>
    if iv.2.expression.isMultiIndex then (acc.1 ++ [[]], acc.2)
    else
      let n := numComponents iv.2.expression.shape
      (acc.1 ++ [(List.range n).map (· + acc.2)], acc.2 + n)
  let r := G.G.nodes.foldl step ([], 0)
  ⟨r.1, r.2⟩

/-- Modelled from the spec: a scalar-reconstruction rule for
scalar-valued operators — the operator node rebuilt on the stored
scalar component of each operand (multi-index operands contribute
nothing). -/
def specReconstruct : Reconstruct := fun e wops =>
  match e with
  | .oper k i sh fi _ => [.oper k i sh fi (wops.flatMap (fun l => l.filterMap id))]
  | .term .. => []

/-! ## Lemmas about the dict embedding -/

theorem alookup_append_some [DecidableEq κ] {k : κ} {m1 m2 : List (κ × ν)} {v : ν}
    (h : alookup k m1 = some v) : alookup k (m1 ++ m2) = some v := by
  induction m1 with
  | nil => simp [alookup] at h
  | cons p rest ih =>
      obtain ⟨k2, v2⟩ := p
      simp only [alookup, List.cons_append] at h ⊢
      split at h <;> simp_all [alookup]

theorem alookup_append_none [DecidableEq κ] {k : κ} {m1 m2 : List (κ × ν)}
    (h : alookup k m1 = none) : alookup k (m1 ++ m2) = alookup k m2 := by
  induction m1 with
  | nil => simp [alookup]
  | cons p rest ih =>
      obtain ⟨k2, v2⟩ := p
      simp only [alookup, List.cons_append] at h ⊢
      split at h <;> simp_all [alookup]

theorem alookup_eq_none_iff [DecidableEq κ] {k : κ} {m : List (κ × ν)} :
    alookup k m = none ↔ k ∉ m.map Prod.fst := by
  induction m with
  | nil => simp [alookup]
  | cons p rest ih =>
      obtain ⟨k2, v2⟩ := p
      simp only [alookup, List.map_cons, List.mem_cons]
      split <;> simp_all <;> tauto

theorem mem_of_alookup [DecidableEq κ] {k : κ} {m : List (κ × ν)} {v : ν}
    (h : alookup k m = some v) : (k, v) ∈ m := by
  induction m with
  | nil => simp [alookup] at h
  | cons p rest ih =>
      obtain ⟨k2, v2⟩ := p
      simp only [alookup] at h
      split at h
      · simp_all
      · simp [ih h]

theorem alookup_isSome_of_mem [DecidableEq κ] {k : κ} {m : List (κ × ν)} {v : ν}
    (h : (k, v) ∈ m) : (alookup k m).isSome := by
  induction m with
  | nil => simp at h
  | cons p rest ih =>
      obtain ⟨k2, v2⟩ := p
      simp only [List.mem_cons] at h
      simp only [alookup]
      rcases h with h | h
      · obtain ⟨rfl, rfl⟩ := Prod.mk.injEq .. ▸ h
        simp
      · split <;> simp [ih h]

theorem alookup_of_mem_nodup [DecidableEq κ] {k : κ} {m : List (κ × ν)} {v : ν}
    (hmem : (k, v) ∈ m) (hnd : (m.map Prod.fst).Nodup) : alookup k m = some v := by
  induction m with
  | nil => simp at hmem
  | cons p rest ih =>
      obtain ⟨k2, v2⟩ := p
      simp only [List.map_cons, List.nodup_cons] at hnd
      simp only [List.mem_cons] at hmem
      simp only [alookup]
      rcases hmem with h | h
      · obtain ⟨rfl, rfl⟩ := Prod.mk.injEq .. ▸ h
        simp
      · have hk : k2 ≠ k := by
          rintro rfl
          exact hnd.1 (List.mem_map.2 ⟨_, h, rfl⟩)
        simp [hk, ih h hnd.2]

theorem alookup_aset_self [DecidableEq κ] (k : κ) (v : ν) (m : List (κ × ν)) :
    alookup k (aset k v m) = some v := by
  induction m with
  | nil => simp [aset, alookup]
  | cons p rest ih =>
      obtain ⟨k2, v2⟩ := p
      simp only [aset]
      split <;> rename_i h <;> simp [alookup, h, ih]

theorem alookup_aset_ne [DecidableEq κ] {k k2 : κ} (hne : k2 ≠ k) (v : ν)
    (m : List (κ × ν)) : alookup k2 (aset k v m) = alookup k2 m := by
  induction m with
  | nil => simp [aset, alookup, Ne.symm hne]
  | cons p rest ih =>
      obtain ⟨k3, v3⟩ := p
      simp only [aset]
      split <;> rename_i h <;> simp [alookup, ih] <;> split <;> simp_all

theorem aset_of_absent [DecidableEq κ] {k : κ} {m : List (κ × ν)}
    (h : k ∉ m.map Prod.fst) (v : ν) : aset k v m = m ++ [(k, v)] := by
  induction m with
  | nil => simp [aset]
  | cons p rest ih =>
      obtain ⟨k2, v2⟩ := p
      simp only [List.map_cons, List.mem_cons] at h
      push_neg at h
      simp [aset, Ne.symm h.1, ih h.2]

theorem amodify_map_fst [DecidableEq κ] (k : κ) (f : ν → ν) (m : List (κ × ν)) :
    (amodify k f m).map Prod.fst = m.map Prod.fst := by
  induction m with
  | nil => simp [amodify]
  | cons p rest ih =>
      obtain ⟨k2, v2⟩ := p
      simp only [amodify]
      split <;> simp [ih]

theorem alookup_amodify_self [DecidableEq κ] (k : κ) (f : ν → ν) (m : List (κ × ν)) :
    alookup k (amodify k f m) = (alookup k m).map f := by
  induction m with
  | nil => simp [amodify, alookup]
  | cons p rest ih =>
      obtain ⟨k2, v2⟩ := p
      simp only [amodify]
      split <;> rename_i h <;> simp [alookup, h, ih]

theorem alookup_amodify_ne [DecidableEq κ] {k k2 : κ} (hne : k2 ≠ k) (f : ν → ν)
    (m : List (κ × ν)) : alookup k2 (amodify k f m) = alookup k2 m := by
  induction m with
  | nil => simp [amodify]
  | cons p rest ih =>
      obtain ⟨k3, v3⟩ := p
      simp only [amodify]
      split <;> rename_i h <;> simp only [alookup] <;> split <;> simp_all

theorem mem_amodify [DecidableEq κ] {k2 : κ} {v2 : ν} (k : κ) (f : ν → ν)
    {m : List (κ × ν)} (h : (k2, v2) ∈ amodify k f m) :
    (k2, v2) ∈ m ∨ ∃ v, (k2, v) ∈ m ∧ v2 = f v := by
  induction m with
  | nil => simp [amodify] at h
  | cons p rest ih =>
      obtain ⟨k3, v3⟩ := p
      simp only [amodify] at h
      split at h <;> rename_i hk <;> simp only [List.mem_cons] at h ⊢
      · rcases h with h | h
        · obtain ⟨rfl, rfl⟩ := Prod.mk.injEq .. ▸ h
          exact Or.inr ⟨v3, Or.inl rfl, rfl⟩
        · exact Or.inl (Or.inr h)
      · rcases h with h | h
        · exact Or.inl (Or.inl h)
        · rcases ih h with h2 | ⟨v, hv, rfl⟩
          · exact Or.inl (Or.inr h2)
          · exact Or.inr ⟨v, Or.inr hv, rfl⟩

theorem dictAppend_isSome_iff [DecidableEq κ] (k : κ) (x : α) (m : List (κ × List α)) :
    (dictAppend k x m).isSome ↔ k ∈ m.map Prod.fst := by
  induction m with
  | nil => simp [dictAppend]
  | cons p rest ih =>
      obtain ⟨k2, l⟩ := p
      simp only [dictAppend, List.map_cons, List.mem_cons]
      split <;> rename_i h
      · simp [h]
      · simpa [Option.isSome_map, Ne.symm h] using ih

theorem dictAppend_map_fst [DecidableEq κ] {k : κ} {x : α} {m m2 : List (κ × List α)}
    (h : dictAppend k x m = some m2) : m2.map Prod.fst = m.map Prod.fst := by
  induction m generalizing m2 with
  | nil => simp [dictAppend] at h
  | cons p rest ih =>
      obtain ⟨k2, l⟩ := p
      simp only [dictAppend] at h
      split at h <;> rename_i hk
      · obtain rfl := Option.some.injEq .. ▸ h
        simp
      · cases hd : dictAppend k x rest with
        | none => simp [hd] at h
        | some r =>
            simp only [hd, Option.map_some] at h
            obtain rfl := Option.some.injEq .. ▸ h
            simp [ih hd]

theorem alookup_dictAppend_self [DecidableEq κ] {k : κ} {x : α}
    {m m2 : List (κ × List α)} (h : dictAppend k x m = some m2) :
    alookup k m2 = (alookup k m).map (· ++ [x]) := by
  induction m generalizing m2 with
  | nil => simp [dictAppend] at h
  | cons p rest ih =>
      obtain ⟨k2, l⟩ := p
      simp only [dictAppend] at h
      split at h <;> rename_i hk
      · obtain rfl := Option.some.injEq .. ▸ h
        simp [alookup, hk]
      · cases hd : dictAppend k x rest with
        | none => simp [hd] at h
        | some r =>
            simp only [hd, Option.map_some] at h
            obtain rfl := Option.some.injEq .. ▸ h
            simp [alookup, hk, ih hd]

theorem alookup_dictAppend_ne [DecidableEq κ] {k k2 : κ} (hne : k2 ≠ k) {x : α}
    {m m2 : List (κ × List α)} (h : dictAppend k x m = some m2) :
    alookup k2 m2 = alookup k2 m := by
  induction m generalizing m2 with
  | nil => simp [dictAppend] at h
  | cons p rest ih =>
      obtain ⟨k3, l⟩ := p
      simp only [dictAppend] at h
      split at h <;> rename_i hk
      · obtain rfl := Option.some.injEq .. ▸ h
        subst hk
        simp [alookup, Ne.symm hne]
      · cases hd : dictAppend k x rest with
        | none => simp [hd] at h
        | some r =>
            simp only [hd, Option.map_some] at h
            obtain rfl := Option.some.injEq .. ▸ h
            simp only [alookup]
            split <;> simp [ih hd]

/-! ## Invariants of the unique post-order enumerator -/

/-- A node the traversal treats as an opaque unit (not descended into)
because `skip_terminal_modifiers` is set: a terminal modifier without
free indices. -/
def opaqueTM (skipTM : Bool) (e : Expr) : Bool :=
  skipTM && e.isTerminalModifier && (e.freeIndices == [])

theorem getops_eq_operands {skipTM : Bool} {e : Expr} (h : opaqueTM skipTM e = false) :
    getops skipTM e = e.operands := by
  cases e with
  | term k i sh fi => simp [getops, Expr.isTerminal, Expr.operands]
  | oper k i sh fi ops =>
      simp only [opaqueTM, Bool.and_eq_false_iff] at h
      unfold getops
      rcases h with (h | h) | h
      · simp [Expr.isTerminal, h]
      · simp [Expr.isTerminal, h]
      · have h3 : (Expr.oper k i sh fi ops).freeIndices ≠ [] := by simpa using h
        simp [Expr.isTerminal, h3]

theorem mem_getops_sizeOf {skipTM : Bool} {e o : Expr} (h : o ∈ getops skipTM e) :
    sizeOf o < sizeOf e := by
  unfold getops at h
  split at h
  · simp at h
  · exact sizeOf_mem_operands' h

theorem mem_snd_lt {m : List (Expr × Nat)}
    (hd : m.map Prod.snd = List.range m.length) {o : Expr} {j : Nat}
    (h : (o, j) ∈ m) : j < m.length := by
  have h2 : j ∈ m.map Prod.snd := List.mem_map_of_mem Prod.snd h
  rw [hd] at h2
  exact List.mem_range.1 h2

/-- The invariant maintained by the enumerator's traversal on the
accumulated expression-to-index map:
* `dense`: the indices, in insertion order, are exactly 0..N-1;
* `nodup`: no expression is indexed twice;
* `noSkipped`: nodes of skipped classes are never entered;
* `opsPresent`: every operand of a non-opaque entry is of a skipped
  class or already in the map;
* `ordered`: every mapped operand of a non-opaque entry has a strictly
  smaller index than the entry. -/
structure EnumInv (skip : Expr → Bool) (skipTM : Bool)
    (m : List (Expr × Nat)) : Prop where
  dense : m.map Prod.snd = List.range m.length
  nodup : (m.map Prod.fst).Nodup
  noSkipped : ∀ p ∈ m, skippedCls skip p.1 = false
  opsPresent : ∀ p ∈ m, opaqueTM skipTM p.1 = false →
    ∀ o ∈ p.1.operands, skippedCls skip o = true ∨ (alookup o m).isSome
  ordered : ∀ p ∈ m, opaqueTM skipTM p.1 = false →
    ∀ o ∈ p.1.operands, ∀ j, (o, j) ∈ m → j < p.2

theorem enumInv_nil (skip : Expr → Bool) (skipTM : Bool) :
    EnumInv skip skipTM [] := by
  constructor <;> simp

theorem enum_aux (skip : Expr → Bool) (skipTM : Bool) : ∀ n : Nat,
    (∀ (e : Expr) (m : List (Expr × Nat)), sizeOf e ≤ n → EnumInv skip skipTM m →
      alookup e m = none →
      EnumInv skip skipTM (visit skip skipTM e m) ∧
      (∃ t, visit skip skipTM e m = m ++ t ∧ ∀ p ∈ t, sizeOf p.1 ≤ sizeOf e) ∧
      (skippedCls skip e = false → (alookup e (visit skip skipTM e m)).isSome)) ∧
    (∀ (l : List Expr) (m : List (Expr × Nat)), sizeOf l ≤ n → EnumInv skip skipTM m →
      EnumInv skip skipTM (visitOps skip skipTM l m) ∧
      (∃ t, visitOps skip skipTM l m = m ++ t ∧
        ∀ p ∈ t, ∃ o ∈ l, sizeOf p.1 ≤ sizeOf o) ∧
      (∀ o ∈ l, skippedCls skip o = false →
        (alookup o (visitOps skip skipTM l m)).isSome)) := by
  intro n
  induction n using Nat.strong_induction_on with
  | _ n ih =>
    constructor
    · -- one pushed frame
      intro e m he hInv hnone
      have hops : sizeOf (getops skipTM e) < sizeOf e := sizeOf_getops skipTM e
      obtain ⟨hInv2, ⟨t, ht, htb⟩, hmem⟩ :=
        (ih (sizeOf (getops skipTM e)) (lt_of_lt_of_le hops he)).2
          (getops skipTM e) m (le_refl _) hInv
      have henot : alookup e (visitOps skip skipTM (getops skipTM e) m) = none := by
        rw [ht, alookup_append_none hnone, alookup_eq_none_iff]
        intro hk
        obtain ⟨p, hp, hpe⟩ := List.mem_map.1 hk
        obtain ⟨o, ho, hle⟩ := htb p hp
        have hlt : sizeOf p.1 < sizeOf e :=
          lt_of_le_of_lt hle (mem_getops_sizeOf ho)
        rw [hpe] at hlt
        omega
      by_cases hsk : skippedCls skip e = true
      · -- skipped class: the frame pops without inserting
        have hv : visit skip skipTM e m = visitOps skip skipTM (getops skipTM e) m := by
          simp only [visit, hsk, if_pos]
        refine ⟨hv ▸ hInv2, ⟨t, by rw [hv, ht], ?_⟩, ?_⟩
        · intro p hp
          obtain ⟨o, ho, hle⟩ := htb p hp
          exact le_of_lt (lt_of_le_of_lt hle (mem_getops_sizeOf ho))
        · intro hc
          rw [hsk] at hc
          cases hc
      · -- insert e with the next dense index
        rw [Bool.not_eq_true] at hsk
        set m2 := visitOps skip skipTM (getops skipTM e) m with hm2
        have hv : visit skip skipTM e m = m2 ++ [(e, m2.length)] := by
          simp only [visit, hsk, Bool.false_eq_true, if_neg, ← hm2]
          simp
        have heknot : e ∉ m2.map Prod.fst := alookup_eq_none_iff.1 henot
        have hInv3 : EnumInv skip skipTM (m2 ++ [(e, m2.length)]) := by
          constructor
          · simp [hInv2.dense, List.range_succ]
          · simp only [List.map_append, List.map_cons, List.map_nil]
            rw [List.nodup_append]
            exact ⟨hInv2.nodup, List.nodup_singleton e,
              by simpa [List.disjoint_singleton] using heknot⟩
          · intro p hp
            rcases List.mem_append.1 hp with hp | hp
            · exact hInv2.noSkipped p hp
            · simp only [List.mem_singleton] at hp
              rw [hp]
              exact hsk
          · intro p hp hop o ho
            rcases List.mem_append.1 hp with hp | hp
            · rcases hInv2.opsPresent p hp hop o ho with hc | hc
              · exact Or.inl hc
              · obtain ⟨v, hv2⟩ := Option.isSome_iff_exists.1 hc
                exact Or.inr (by rw [alookup_append_some hv2]; rfl)
            · simp only [List.mem_singleton] at hp
              rw [hp] at hop ho
              have ho2 : o ∈ getops skipTM e := by
                rw [getops_eq_operands hop]
                exact ho
              by_cases hso : skippedCls skip o = true
              · exact Or.inl hso
              · rw [Bool.not_eq_true] at hso
                obtain ⟨v, hv2⟩ := Option.isSome_iff_exists.1 (hmem o ho2 hso)
                exact Or.inr (by rw [alookup_append_some hv2]; rfl)
          · intro p hp hop o ho j hj
            rcases List.mem_append.1 hp with hp | hp
            · rcases List.mem_append.1 hj with hj | hj
              · exact hInv2.ordered p hp hop o ho j hj
              · simp only [List.mem_singleton, Prod.mk.injEq] at hj
                exfalso
                rcases hInv2.opsPresent p hp hop o ho with hc | hc
                · rw [hj.1] at hc
                  rw [hsk] at hc
                  cases hc
                · rw [hj.1] at hc
                  rw [henot] at hc
                  cases hc
            · simp only [List.mem_singleton] at hp
              rcases List.mem_append.1 hj with hj | hj
              · have := mem_snd_lt hInv2.dense hj
                rw [hp]
                exact this
              · simp only [List.mem_singleton, Prod.mk.injEq] at hj
                exfalso
                rw [hp] at ho
                rw [hj.1] at ho
                have h5 := sizeOf_mem_operands' ho
                simp at h5
        refine ⟨hv ▸ hInv3, ⟨t ++ [(e, m2.length)], ?_, ?_⟩, ?_⟩
        · rw [hv, ht, List.append_assoc]
        · intro p hp
          rcases List.mem_append.1 hp with hp | hp
          · obtain ⟨o, ho, hle⟩ := htb p hp
            exact le_of_lt (lt_of_le_of_lt hle (mem_getops_sizeOf ho))
          · simp only [List.mem_singleton] at hp
            rw [hp]
        · intro _
          rw [hv, alookup_append_none henot]
          simp [alookup]
    · -- the operand scan of one frame
      intro l m hl hInv
      cases l with
      | nil =>
          refine ⟨by simpa only [visitOps] using hInv, ⟨[], by simp [visitOps], by simp⟩, by simp⟩
      | cons o os =>
          have hsz : sizeOf (o :: os) = 1 + sizeOf o + sizeOf os := by simp
          have hlto : sizeOf o < n := by omega
          have hltos : sizeOf os < n := by omega
          have hv : visitOps skip skipTM (o :: os) m =
              visitOps skip skipTM os
                (if (alookup o m).isSome then m else visit skip skipTM o m) := by
            simp only [visitOps]
          by_cases hs : (alookup o m).isSome
          · obtain ⟨hInv2, ⟨t2, ht2, hb2⟩, hmem2⟩ :=
              (ih (sizeOf os) hltos).2 os m (le_refl _) hInv
            rw [hs, if_pos rfl] at hv
            refine ⟨hv ▸ hInv2, ⟨t2, by rw [hv, ht2], ?_⟩, ?_⟩
            · intro p hp
              obtain ⟨o2, ho2, hle⟩ := hb2 p hp
              exact ⟨o2, List.mem_cons_of_mem o ho2, hle⟩
            · intro o2 ho2 hso2
              rcases List.mem_cons.1 ho2 with rfl | ho2
              · obtain ⟨v, hv2⟩ := Option.isSome_iff_exists.1 hs
                rw [hv, ht2, alookup_append_some hv2]
                rfl
              · rw [hv]
                exact hmem2 o2 ho2 hso2
          · have hnone : alookup o m = none := Option.not_isSome_iff_eq_none.1 hs
            obtain ⟨hInv1, ⟨t1, ht1, hb1⟩, hpres⟩ :=
              (ih (sizeOf o) hlto).1 o m (le_refl _) hInv hnone
            obtain ⟨hInv2, ⟨t2, ht2, hb2⟩, hmem2⟩ :=
              (ih (sizeOf os) hltos).2 os (visit skip skipTM o m) (le_refl _) hInv1
            rw [if_neg hs] at hv
            refine ⟨hv ▸ hInv2, ⟨t1 ++ t2, by rw [hv, ht2, ht1, List.append_assoc], ?_⟩, ?_⟩
            · intro p hp
              rcases List.mem_append.1 hp with hp | hp
              · exact ⟨o, List.mem_cons_self o os, hb1 p hp⟩
              · obtain ⟨o2, ho2, hle⟩ := hb2 p hp
                exact ⟨o2, List.mem_cons_of_mem o ho2, hle⟩
            · intro o2 ho2 hso2
              rcases List.mem_cons.1 ho2 with rfl | ho2
              · obtain ⟨v, hv2⟩ := Option.isSome_iff_exists.1 (hpres hso2)
                rw [hv, ht2, alookup_append_some hv2]
                rfl
              · rw [hv]
                exact hmem2 o2 ho2 hso2

/-- The traversal invariant holds of the final enumerator map. -/
theorem count_nodes_inv (expr : Expr) (skip : Expr → Bool) (skipTM : Bool) :
    EnumInv skip skipTM (count_nodes_with_unique_post_traversal expr skip skipTM) :=
  ((enum_aux skip skipTM (sizeOf expr)).1 expr [] (le_refl _)
    (enumInv_nil skip skipTM) rfl).1

/-- When the root is not of a skipped class it is the last entry of the
enumerator map, carrying the highest index. -/
theorem count_nodes_root_last (expr : Expr) (skip : Expr → Bool) (skipTM : Bool)
    (h : skippedCls skip expr = false) :
    ∃ t, count_nodes_with_unique_post_traversal expr skip skipTM = t ++ [(expr, t.length)]
      ∧ alookup expr t = none := by
  obtain ⟨_, ⟨t, ht, htb⟩, _⟩ :=
    (enum_aux skip skipTM (sizeOf (getops skipTM expr))).2
      (getops skipTM expr) [] (le_refl _) (enumInv_nil skip skipTM)
  have henot : alookup expr (visitOps skip skipTM (getops skipTM expr) []) = none := by
    rw [ht, List.nil_append, alookup_eq_none_iff]
    intro hk
    obtain ⟨p, hp, hpe⟩ := List.mem_map.1 hk
    obtain ⟨o, ho, hle⟩ := htb p hp
    have hlt := lt_of_le_of_lt hle (mem_getops_sizeOf ho)
    rw [hpe] at hlt
    omega
  refine ⟨visitOps skip skipTM (getops skipTM expr) [], ?_, henot⟩
  unfold count_nodes_with_unique_post_traversal
  simp only [visit, h, Bool.false_eq_true, if_neg]
  simp

/-- A map whose indices are dense in insertion order is already sorted
by index, so Python's stable `sorted` leaves it unchanged. -/
theorem mergeSort_dense_eq {m : List (Expr × Nat)}
    (hd : m.map Prod.snd = List.range m.length) :
    m.mergeSort (fun a b => decide (a.2 ≤ b.2)) = m := by
  apply List.mergeSort_of_sorted
  have h1 : (m.map Prod.snd).Pairwise (· < ·) := by
    rw [hd]
    exact List.pairwise_lt_range m.length
  have h2 : m.Pairwise (fun a b => a.2 < b.2) := List.pairwise_map.1 h1
  exact h2.imp (by intro a b h; simpa using le_of_lt h)

/-! ## Structure of the graphs produced by `build_graph_vertices` -/

theorem alookup_dense {β : Type} {l : List (Nat × β)}
    (hd : l.map Prod.fst = List.range l.length) (i : Nat) :
    alookup i l = (l[i]?).map Prod.snd := by
  by_cases hi : i < l.length
  · have hp : l[i]? = some l[i] := List.getElem?_eq_getElem hi
    set q := l[i] with hq
    have hfst : q.1 = i := by
      have h2 := congrArg (fun t => t[i]?) hd
      simp only [List.getElem?_map, hp, List.getElem?_range hi, Option.map_some] at h2
      exact Option.some.injEq .. ▸ h2
    have hmem : (i, q.2) ∈ l := by
      have h3 : q ∈ l := by
        rw [hq]
        exact List.getElem_mem hi
      rw [← hfst]
      simpa using h3
    have hnd : (l.map Prod.fst).Nodup := by
      rw [hd]
      exact List.nodup_range l.length
    rw [alookup_of_mem_nodup hmem hnd, hp]
    rfl
  · have h1 : alookup i l = none := by
      rw [alookup_eq_none_iff, hd]
      simpa using hi
    rw [h1, List.getElem?_eq_none (le_of_not_lt hi)]
    rfl

theorem mem_dense_eq_get {m : List (Expr × Nat)}
    (hd : m.map Prod.snd = List.range m.length) {e : Expr} {i : Nat}
    (h : (e, i) ∈ m) : m[i]? = some (e, i) := by
  obtain ⟨j, hj, hget⟩ := List.getElem_of_mem h
  have hsnd : i = j := by
    have h2 := congrArg (fun t => t[j]?) hd
    simp only [List.getElem?_map, List.getElem?_eq_getElem hj, hget,
      List.getElem?_range hj, Option.map_some] at h2
    exact Option.some.injEq .. ▸ h2
  subst hsnd
  rw [List.getElem?_eq_getElem hj, hget]

theorem map_amodify_of_no_key [DecidableEq κ] {l : List (κ × ν)} {k : κ} (f : ν → ν)
    (h : ∀ p ∈ l, p.1 ≠ k) :
    l.map (fun p => if p.1 = k then (p.1, f p.2) else p) = l := by
  induction l with
  | nil => simp
  | cons p rest ih =>
      rw [List.map_cons, if_neg (h p (List.mem_cons_self p rest)),
        ih (fun q hq => h q (List.mem_cons_of_mem p hq))]

theorem amodify_eq_map_of_nodup [DecidableEq κ] {l : List (κ × ν)} {k : κ} (f : ν → ν)
    (hnd : (l.map Prod.fst).Nodup) :
    amodify k f l = l.map (fun p => if p.1 = k then (p.1, f p.2) else p) := by
  induction l with
  | nil => simp [amodify]
  | cons p rest ih =>
      obtain ⟨k2, v⟩ := p
      simp only [List.map_cons, List.nodup_cons] at hnd
      simp only [amodify, List.map_cons]
      split <;> rename_i hk
      · subst hk
        simp only [if_pos rfl, List.cons.injEq, true_and]
        rw [map_amodify_of_no_key]
        intro q hq hqk
        exact hnd.1 (List.mem_map.2 ⟨q, hq, hqk⟩)
      · simp only [if_neg hk, List.cons.injEq, true_and]
        exact ih hnd.2

theorem addnodes_foldl (l : List (Nat × Expr)) (g : ExpressionGraph Nat Payload)
    (hfresh : ∀ p ∈ l, p.1 ∉ g.nodes.map Prod.fst ∧ p.1 ∉ g.out_edges.map Prod.fst ∧
      p.1 ∉ g.in_edges.map Prod.fst)
    (hnd : (l.map Prod.fst).Nodup) :
    l.foldl (fun g iv => g.add_node iv.1 ⟨iv.2, false⟩) g =
      { nodes := g.nodes ++ l.map (fun iv => (iv.1, ⟨iv.2, false⟩))
        out_edges := g.out_edges ++ l.map (fun iv => (iv.1, []))
        in_edges := g.in_edges ++ l.map (fun iv => (iv.1, [])) } := by
  induction l generalizing g with
  | nil => simp
  | cons p rest ih =>
      obtain ⟨k, v⟩ := p
      obtain ⟨h1, h2, h3⟩ := hfresh (k, v) (List.mem_cons_self _ _)
      simp only [List.map_cons, List.nodup_cons] at hnd
      simp only [List.foldl_cons]
      rw [ih]
      · simp [ExpressionGraph.add_node, aset_of_absent h1, aset_of_absent h2,
          aset_of_absent h3]
      · intro q hq
        have hqk : q.1 ≠ k := by
          intro hh
          exact hnd.1 (hh ▸ List.mem_map.2 ⟨q, hq, hh ▸ rfl⟩)
        obtain ⟨hq1, hq2, hq3⟩ := hfresh q (List.mem_cons_of_mem _ hq)
        refine ⟨?_, ?_, ?_⟩ <;>
          simp [ExpressionGraph.add_node, aset_of_absent, h1, h2, h3, hq1, hq2, hq3, hqk]
      · exact hnd.2

/-- Full characterization of a successful `build_graph_vertices` run:
the attached `e2i` is the enumerator map, node keys are the dense
indices in insertion order, all edge lists are empty, and exactly the
image of the root (the last, highest-indexed node) carries the target
flag. -/
theorem build_graph_vertices_spec (expr : Expr) (skip : Expr → Bool) (skipTM : Bool)
    (hsk : skippedCls skip expr = false) :
    ∃ g, build_graph_vertices expr skip skipTM = some g ∧
      g.e2i = count_nodes_with_unique_post_traversal expr skip skipTM ∧
      g.G.nodes.length = g.e2i.length ∧
      g.G.nodes.map Prod.fst = List.range g.e2i.length ∧
      g.G.out_edges = (List.range g.e2i.length).map (fun i => (i, ([] : List Nat))) ∧
      g.G.in_edges = (List.range g.e2i.length).map (fun i => (i, ([] : List Nat))) ∧
      alookup expr g.e2i = some (g.e2i.length - 1) ∧
      (∀ e i, (e, i) ∈ g.e2i →
        alookup i g.G.nodes = some ⟨e, decide (i = g.e2i.length - 1)⟩) ∧
      (∀ i p, alookup i g.G.nodes = some p → (p.expression, i) ∈ g.e2i ∧
        (p.target = true ↔ i = g.e2i.length - 1)) := by
  have hInv := count_nodes_inv expr skip skipTM
  obtain ⟨t, htm, htn⟩ := count_nodes_root_last expr skip skipTM hsk
  set m := count_nodes_with_unique_post_traversal expr skip skipTM with hm
  set fset : Payload → Payload := fun p => { p with target := true } with hfset
  set nodes0 : List (Nat × Payload) :=
    (m.map Prod.fst).enum.map (fun iv => (iv.1, ⟨iv.2, false⟩)) with hnodes0
  have hvt : alookup expr m = some t.length := by
    rw [htm, alookup_append_none htn]
    simp [alookup]
  have hN : m.length = t.length + 1 := by
    rw [htm]
    simp
  have hGV : m.mergeSort (fun a b => decide (a.2 ≤ b.2)) = m := mergeSort_dense_eq hInv.dense
  have hen : (m.map Prod.fst).enum.map Prod.fst = List.range m.length := by
    rw [List.enum_map_fst]
    simp
  have hn0fst : nodes0.map Prod.fst = List.range m.length := by
    rw [hnodes0, List.map_map, ← hen]
    rfl
  have hn0len : nodes0.length = m.length := by
    rw [hnodes0]
    simp [List.enum_length]
  have hn0get : ∀ i : Nat, nodes0[i]? = (m[i]?).map (fun q => (i, ⟨q.1, false⟩)) := by
    intro i
    rw [hnodes0]
    simp only [List.getElem?_map, List.getElem?_enum, Option.map_map]
    rfl
  have hsndi : ∀ (i : Nat) (q : Expr × Nat), m[i]? = some q → q.2 = i := by
    intro i q hq
    have hi : i < m.length := by
      by_contra hcon
      rw [List.getElem?_eq_none (le_of_not_lt hcon)] at hq
      exact Option.noConfusion hq
    have h2 := congrArg (fun l => l[i]?) hInv.dense
    simp only [List.getElem?_map, hq, List.getElem?_range hi, Option.map_some] at h2
    exact Option.some.injEq .. ▸ h2
  have hmemi : ∀ (i : Nat) (q : Expr × Nat), m[i]? = some q → q ∈ m := by
    intro i q hq
    have hi : i < m.length := by
      by_contra hcon
      rw [List.getElem?_eq_none (le_of_not_lt hcon)] at hq
      exact Option.noConfusion hq
    rw [List.getElem?_eq_getElem hi] at hq
    obtain rfl := Option.some.injEq .. ▸ hq
    exact List.getElem_mem hi
  have key : build_graph_vertices expr skip skipTM =
      some ⟨m, { nodes := amodify t.length fset nodes0
                 out_edges := (m.map Prod.fst).enum.map fun iv => (iv.1, [])
                 in_edges := (m.map Prod.fst).enum.map fun iv => (iv.1, []) }⟩ := by
    have hfoldeq := addnodes_foldl ((m.map Prod.fst).enum) {} (by simp)
        (by rw [hen]; exact List.nodup_range _)
    unfold build_graph_vertices
    rw [← hm]
    simp only [hGV, hvt]
    rw [hfoldeq]
    simp [hnodes0, hfset]
  have hedges : ((m.map Prod.fst).enum.map fun iv => (iv.1, ([] : List Nat)))
      = (List.range m.length).map (fun i => (i, [])) := by
    rw [← hen, List.map_map]
    rfl
  refine ⟨_, key, rfl, ?_, ?_, hedges, hedges, ?_, ?_, ?_⟩
  · -- node count
    show (amodify t.length fset nodes0).length = m.length
    have h := congrArg List.length (amodify_map_fst t.length fset nodes0)
    simp only [List.length_map] at h
    rw [h, hn0len]
  · -- dense node keys
    show (amodify t.length fset nodes0).map Prod.fst = List.range m.length
    rw [amodify_map_fst, hn0fst]
  · -- the root's index
    show alookup expr m = some (m.length - 1)
    rw [hvt, hN]
    simp
  · -- forward: every enumerated expression is a node, flagged iff last
    intro e i hei
    show alookup i (amodify t.length fset nodes0) = some ⟨e, decide (i = m.length - 1)⟩
    have hmi : m[i]? = some (e, i) := mem_dense_eq_get hInv.dense hei
    have hl0 : alookup i nodes0 = some ⟨e, false⟩ := by
      rw [alookup_dense (by rw [hn0fst, hn0len]) i, hn0get i, hmi]
      rfl
    by_cases hivt : i = t.length
    · subst hivt
      rw [alookup_amodify_self, hl0, hN]
      simp [hfset]
    · rw [alookup_amodify_ne hivt, hl0, hN]
      simp only [Nat.add_sub_cancel]
      simp [hivt]
  · -- backward: every node's payload is an enumerated expression
    intro i p hp
    show (p.expression, i) ∈ m ∧ (p.target = true ↔ i = m.length - 1)
    have hfstF : (amodify t.length fset nodes0).map Prod.fst = List.range m.length := by
      rw [amodify_map_fst, hn0fst]
    have hlenF : (amodify t.length fset nodes0).length = m.length := by
      have h := congrArg List.length (amodify_map_fst t.length fset nodes0)
      simp only [List.length_map] at h
      rw [h, hn0len]
    have hdl := alookup_dense (by rw [hfstF, hlenF]) i
    rw [hp] at hdl
    have hmap : amodify t.length fset nodes0
        = nodes0.map (fun q => if q.1 = t.length then (q.1, fset q.2) else q) := by
      apply amodify_eq_map_of_nodup
      rw [hn0fst]
      exact List.nodup_range _
    rw [hmap, List.getElem?_map, hn0get i, Option.map_map] at hdl
    cases hqm : m[i]? with
    | none =>
        rw [hqm] at hdl
        exact Option.noConfusion hdl
    | some qm =>
        rw [hqm] at hdl
        have hq2 : qm.2 = i := hsndi i qm hqm
        have hqmem : qm ∈ m := hmemi i qm hqm
        by_cases hivt : i = t.length
        · simp [hfset, hivt, Function.comp] at hdl
          constructor
          · rw [hdl]
            show (qm.1, i) ∈ m
            rw [← hq2]
            exact hqmem
          · rw [hdl, hN, hivt]
            simp
        · simp [hfset, hivt, Function.comp] at hdl
          constructor
          · rw [hdl]
            show (qm.1, i) ∈ m
            rw [← hq2]
            exact hqmem
          · rw [hdl, hN]
            simp only [Nat.add_sub_cancel]
            simp [hivt]

/-! ## Lemmas about the symbol table and the store loop -/

theorem setD_get?_ne {α : Type} (a : Array α) {i j : Nat} (v : α) (h : i ≠ j) :
    (a.setD i v).get? j = a.get? j := by
  simp only [Array.get?_eq_getElem?, Array.setD]
  split
  · exact Array.getElem?_set_ne a _ v h
  · rfl

theorem setD_get?_eq {α : Type} (a : Array α) {i : Nat} (v w : α)
    (h : a.get? i = some w) : (a.setD i v).get? i = some v := by
  simp only [Array.get?_eq_getElem?]
  apply Array.getElem?_setD_eq
  by_contra hc
  rw [Array.get?_eq_getElem?, Array.getElem?_len_le a (Nat.le_of_not_lt hc)] at h
  exact Option.noConfusion h

theorem storeGo_nil (W : Array (Option Expr)) (handled : List Nat) :
    storeGo [] W handled = .ok W := rfl

theorem storeGo_cons (s0 : Nat) (w0 : Expr) (rest : List (Nat × Expr))
    (W : Array (Option Expr)) (handled : List Nat) :
    storeGo ((s0, w0) :: rest) W handled =
      match W.get? s0 with
      | none => .error .indexError
      | some none => storeGo rest (W.setD s0 (some w0)) (s0 :: handled)
      | some (some _) =>
          if s0 ∈ handled then storeGo rest W handled else .error .assertionError := rfl

/-- Successful store runs never change a filled slot. -/
theorem storeGo_preserves (l : List (Nat × Expr)) (W : Array (Option Expr))
    (handled : List Nat) :
    ∀ W2, storeGo l W handled = .ok W2 →
      ∀ s w, W.get? s = some (some w) → W2.get? s = some (some w) := by
  induction l generalizing W handled with
  | nil =>
      intro W2 hok s w hw
      rw [storeGo_nil] at hok
      obtain rfl := Except.ok.injEq .. ▸ hok
      exact hw
  | cons p rest ih =>
      obtain ⟨s0, w0⟩ := p
      intro W2 hok s w hw
      rw [storeGo_cons] at hok
      split at hok
      · exact Except.noConfusion hok
      · rename_i hg
        have hne : s0 ≠ s := by
          rintro rfl
          rw [hg] at hw
          exact Option.noConfusion (Option.some.injEq .. ▸ hw)
        refine ih _ _ W2 hok s w ?_
        rw [setD_get?_ne W (some w0) hne]
        exact hw
      · split at hok
        · exact ih _ _ W2 hok s w hw
        · exact Except.noConfusion hok

/-- A store that targets an already-filled slot fails — with the
assertion, or with an earlier error of the same loop — for any
`handled` set not containing that symbol. -/
theorem storeGo_filled_err (l : List (Nat × Expr)) (W : Array (Option Expr))
    (handled : List Nat) :
    ∀ s w wf, (s, w) ∈ l → W.get? s = some (some wf) → s ∉ handled →
      ∃ err, storeGo l W handled = .error err := by
  induction l generalizing W handled with
  | nil =>
      intro s w wf h
      simp at h
  | cons p rest ih =>
      obtain ⟨s0, w0⟩ := p
      intro s w wf hmem hfill hnh
      rw [storeGo_cons]
      split
      · exact ⟨.indexError, rfl⟩
      · rename_i hg
        have hne : s0 ≠ s := by
          rintro rfl
          rw [hg] at hfill
          exact Option.noConfusion (Option.some.injEq .. ▸ hfill)
        rcases List.mem_cons.1 hmem with heq | hmem2
        · exact absurd (Prod.mk.injEq .. ▸ heq).1.symm hne
        · refine ih _ _ s w wf hmem2 ?_ ?_
          · rw [setD_get?_ne W (some w0) hne]
            exact hfill
          · intro hc
            rcases List.mem_cons.1 hc with rfl | hc2
            · exact hne rfl
            · exact hnh hc2
      · by_cases hh : s0 ∈ handled
        · rw [if_pos hh]
          rcases List.mem_cons.1 hmem with heq | hmem2
          · exact absurd hh ((Prod.mk.injEq .. ▸ heq).1 ▸ hnh)
          · exact ih _ _ s w wf hmem2 hfill hnh
        · rw [if_neg hh]
          exact ⟨.assertionError, rfl⟩

/-- Every filled slot of a successful store result was either already
filled with that very expression, or was empty and got one of the
produced (symbol, expression) pairs. -/
theorem storeGo_source (l : List (Nat × Expr)) (W : Array (Option Expr))
    (handled : List Nat) :
    ∀ W2, storeGo l W handled = .ok W2 →
      ∀ s w2, W2.get? s = some (some w2) →
        W.get? s = some (some w2) ∨ (s, w2) ∈ l := by
  induction l generalizing W handled with
  | nil =>
      intro W2 hok s w2 hw
      rw [storeGo_nil] at hok
      obtain rfl := Except.ok.injEq .. ▸ hok
      exact Or.inl hw
  | cons p rest ih =>
      obtain ⟨s0, w0⟩ := p
      intro W2 hok s w2 hw
      rw [storeGo_cons] at hok
      split at hok
      · exact Except.noConfusion hok
      · rename_i hg
        rcases ih _ _ W2 hok s w2 hw with hleft | hright
        · by_cases hse : s0 = s
          · subst hse
            rw [setD_get?_eq W (some w0) none hg] at hleft
            have h3 : w0 = w2 :=
              Option.some.injEq .. ▸ (Option.some.injEq .. ▸ hleft)
            refine Or.inr ?_
            rw [← h3]
            exact List.mem_cons_self _ _
          · rw [setD_get?_ne W (some w0) hse] at hleft
            exact Or.inl hleft
        · exact Or.inr (List.mem_cons_of_mem _ hright)
      · split at hok
        · rcases ih _ _ W2 hok s w2 hw with hleft | hright
          · exact Or.inl hleft
          · exact Or.inr (List.mem_cons_of_mem _ hright)
        · exact Except.noConfusion hok

theorem mem_keys_of_isSome [DecidableEq κ] {k : κ} {m : List (κ × ν)}
    (h : (alookup k m).isSome) : k ∈ m.map Prod.fst := by
  rcases hh : alookup k m with _ | v
  · rw [hh] at h
    exact absurd h (by simp)
  · exact List.mem_map.2 ⟨(k, v), mem_of_alookup hh, rfl⟩

theorem alookup_unique [DecidableEq κ] {m : List (κ × ν)}
    (hnd : (m.map Prod.fst).Nodup) {k : κ} {v w : ν}
    (h1 : (k, v) ∈ m) (h2 : (k, w) ∈ m) : v = w := by
  have e1 := alookup_of_mem_nodup h1 hnd
  have e2 := alookup_of_mem_nodup h2 hnd
  rw [e1] at e2
  exact Option.some.injEq .. ▸ e2

/-! ## Claim theorems about the container and the enumerator -/

/-- C3: for every `ExpressionGraph` (with the class invariant that
every registered node owns edge-list entries) and every pair of keys,
`add_edge` fails with a `KeyError` and leaves the graph — in particular
every node's out-edge and in-edge lists — unchanged when either
endpoint is not a registered node; otherwise it succeeds, appending
`n2` to `n1`'s out-edges and `n1` to `n2`'s in-edges and touching
nothing else. -/
theorem add_edge_keyerror_or_appends {κ π : Type} [DecidableEq κ]
    (g : ExpressionGraph κ π) (n1 n2 : κ)
    (hwf : ∀ k, (alookup k g.nodes).isSome →
      (alookup k g.out_edges).isSome ∧ (alookup k g.in_edges).isSome) :
    (((alookup n1 g.nodes).isNone ∨ (alookup n2 g.nodes).isNone) →
      g.add_edge n1 n2 = (g, some .keyError)) ∧
    ((alookup n1 g.nodes).isSome → (alookup n2 g.nodes).isSome →
      ∃ g2, g.add_edge n1 n2 = (g2, none) ∧
        g2.nodes = g.nodes ∧
        alookup n1 g2.out_edges = (alookup n1 g.out_edges).map (fun l => l ++ [n2]) ∧
        alookup n2 g2.in_edges = (alookup n2 g.in_edges).map (fun l => l ++ [n1]) ∧
        (∀ k, k ≠ n1 → alookup k g2.out_edges = alookup k g.out_edges) ∧
        (∀ k, k ≠ n2 → alookup k g2.in_edges = alookup k g.in_edges)) := by
  constructor
  · intro h
    unfold ExpressionGraph.add_edge
    rw [if_pos h]
  · intro h1 h2
    have ho : (dictAppend n1 n2 g.out_edges).isSome :=
      (dictAppend_isSome_iff ..).2 (mem_keys_of_isSome (hwf n1 h1).1)
    have hi : (dictAppend n2 n1 g.in_edges).isSome :=
      (dictAppend_isSome_iff ..).2 (mem_keys_of_isSome (hwf n2 h2).2)
    obtain ⟨oe, hoe⟩ := Option.isSome_iff_exists.1 ho
    obtain ⟨ie, hie⟩ := Option.isSome_iff_exists.1 hi
    refine ⟨{ g with out_edges := oe, in_edges := ie }, ?_, rfl, ?_, ?_, ?_, ?_⟩
    · unfold ExpressionGraph.add_edge
      rw [if_neg, hoe, hie]
      rintro (hc | hc)
      · rw [Option.isSome_iff_exists.1 h1 |>.choose_spec] at hc
        exact Bool.noConfusion hc
      · rw [Option.isSome_iff_exists.1 h2 |>.choose_spec] at hc
        exact Bool.noConfusion hc
    · exact alookup_dictAppend_self hoe
    · exact alookup_dictAppend_self hie
    · intro k hk
      exact alookup_dictAppend_ne hk hoe
    · intro k hk
      exact alookup_dictAppend_ne hk hie

/-- C10: `add_node` is total (it never raises); it installs the new
payload under the key and resets that key's out-edge and in-edge lists
to empty — discarding any edges previously recorded there — while every
other key's entries are untouched. -/
theorem add_node_resets {κ π : Type} [DecidableEq κ] (g : ExpressionGraph κ π)
    (k : κ) (p : π) :
    alookup k (g.add_node k p).nodes = some p ∧
    alookup k (g.add_node k p).out_edges = some [] ∧
    alookup k (g.add_node k p).in_edges = some [] ∧
    (∀ k2, k2 ≠ k →
      alookup k2 (g.add_node k p).nodes = alookup k2 g.nodes ∧
      alookup k2 (g.add_node k p).out_edges = alookup k2 g.out_edges ∧
      alookup k2 (g.add_node k p).in_edges = alookup k2 g.in_edges) := by
  refine ⟨alookup_aset_self .., alookup_aset_self .., alookup_aset_self .., ?_⟩
  intro k2 hne
  exact ⟨alookup_aset_ne hne .., alookup_aset_ne hne .., alookup_aset_ne hne ..⟩

/-- C1: the unique post-order enumerator returns a dense zero-based
indexing (its values, in insertion order, are exactly `0..N-1`), and
for every node in the mapping that is not skipped as an opaque
terminal-modifier unit, every operand that is itself in the mapping has
a strictly smaller index — children strictly precede parents. -/
theorem enumerator_dense_and_ordered (expr : Expr) (skip : Expr → Bool) (skipTM : Bool) :
    (count_nodes_with_unique_post_traversal expr skip skipTM).map Prod.snd
      = List.range (count_nodes_with_unique_post_traversal expr skip skipTM).length ∧
    (∀ e i, (e, i) ∈ count_nodes_with_unique_post_traversal expr skip skipTM →
      opaqueTM skipTM e = false →
      ∀ o ∈ e.operands, ∀ j,
        (o, j) ∈ count_nodes_with_unique_post_traversal expr skip skipTM → j < i) :=
  ⟨(count_nodes_inv expr skip skipTM).dense,
   fun e i hm hop o ho j hj =>
     (count_nodes_inv expr skip skipTM).ordered (e, i) hm hop o ho j hj⟩

/-- C6: the enumerator is deterministic — two runs on the same input
tree with the same skip arguments produce the same mapping, so every
node receives the same index in both runs. -/
theorem enumerator_deterministic (expr : Expr) (skip : Expr → Bool) (skipTM : Bool)
    (r1 r2 : List (Expr × Nat))
    (h1 : r1 = count_nodes_with_unique_post_traversal expr skip skipTM)
    (h2 : r2 = count_nodes_with_unique_post_traversal expr skip skipTM) :
    r1 = r2 ∧ ∀ x, alookup x r1 = alookup x r2 := by
  subst h1
  subst h2
  exact ⟨rfl, fun _ => rfl⟩

/-- C9: when the root is not of a skipped class, `build_graph_vertices`
succeeds and flags exactly one node with `target = true`: the image of
the root expression, which is the last node inserted (node keys are the
dense indices in insertion order) and carries the highest index
`number_of_nodes() - 1`. -/
theorem build_graph_vertices_single_target (expr : Expr) (skip : Expr → Bool)
    (skipTM : Bool) (hsk : skippedCls skip expr = false) :
    ∃ g, build_graph_vertices expr skip skipTM = some g ∧
      alookup (g.G.number_of_nodes - 1) g.G.nodes = some ⟨expr, true⟩ ∧
      alookup expr g.e2i = some (g.G.number_of_nodes - 1) ∧
      (∀ i p, alookup i g.G.nodes = some p → p.target = true →
        i = g.G.number_of_nodes - 1) ∧
      g.G.nodes.map Prod.fst = List.range g.G.number_of_nodes := by
  obtain ⟨g, hbg, he2i, hlen, hkeys, _, _, hroot, hfwd, hbwd⟩ :=
    build_graph_vertices_spec expr skip skipTM hsk
  have hnn : g.G.number_of_nodes = g.e2i.length := hlen
  refine ⟨g, hbg, ?_, ?_, ?_, ?_⟩
  · rw [hnn]
    have hmem : (expr, g.e2i.length - 1) ∈ g.e2i := mem_of_alookup hroot
    have := hfwd expr (g.e2i.length - 1) hmem
    rw [this]
    simp
  · rw [hnn]
    exact hroot
  · intro i p hp htgt
    rw [hnn]
    exact ((hbwd i p hp).2).1 htgt
  · rw [hnn]
    exact hkeys

theorem exc_bind_ok {ε α β : Type} (a : α) (f : α → Except ε β) :
    (Except.ok a : Except ε α) >>= f = f a := rfl

theorem exc_bind_err {ε α β : Type} (e : ε) (f : α → Except ε β) :
    (Except.error e : Except ε α) >>= f = .error e := rfl

theorem allFilled_cons (W : Array (Option Expr)) (s : Nat) (rest : List Nat) :
    allFilled W (s :: rest) =
      match W.get? s with
      | none => .error .indexError
      | some none => .ok false
      | some (some _) => allFilled W rest := rfl

/-- C5: the symbol table is write-once.  In the store loop of
`rebuild_with_scalar_subexpressions`: a slot filled before the loop is
never changed by a successful run; if the loop targets such a filled
slot at all, the run fails (with the assertion, as the slot cannot be
in `handled`); and every slot filled by a successful run either held
that expression already or received one of the produced (symbol,
expression) pairs — a filled slot is never silently overwritten by a
different expression.  A repeated symbol inside one `vs` (a symmetry
alias) is accepted: the slot keeps the first expression. -/
theorem symbol_table_write_once (W : Array (Option Expr)) (vs : List Nat)
    (ws : List Expr) :
    (∀ s w, W.get? s = some (some w) →
      (∀ W2, storeSymbols W vs ws = .ok W2 → W2.get? s = some (some w)) ∧
      (s ∈ (vs.zip ws).map Prod.fst → ∃ err, storeSymbols W vs ws = .error err)) ∧
    (∀ W2, storeSymbols W vs ws = .ok W2 → ∀ s w2, W2.get? s = some (some w2) →
      W.get? s = some (some w2) ∨ (s, w2) ∈ vs.zip ws) := by
  unfold storeSymbols
  refine ⟨?_, storeGo_source _ _ _⟩
  intro s w hfill
  refine ⟨fun W2 hok => storeGo_preserves _ _ _ W2 hok s w hfill, ?_⟩
  intro hmem
  obtain ⟨q, hq, hqe⟩ := List.mem_map.1 hmem
  have hq2 : (s, q.2) ∈ vs.zip ws := by
    rw [← hqe]
    exact hq
  exact storeGo_filled_err _ _ _ s q.2 w hq2 hfill (List.not_mem_nil s)

/-- C4: in `rebuild_with_scalar_subexpressions`, an operator node (not
a modified terminal) whose reconstruction rule returns a number of
scalar expressions different from its symbol-sequence length makes the
rebuild fail with the `RuntimeError` "Expecting one symbol for each
expression." instead of truncating or duplicating outputs. -/
theorem rebuild_arity_mismatch_raises (recon : Reconstruct)
    (Vsym : List (List Nat)) (e2i : List (Expr × Nat)) (W : Array (Option Expr))
    (i : Nat) (p : Payload) (vs : List Nat) (sops : List (List Nat))
    (wops : List (List (Option Expr)))
    (hvs : Vsym.get? i = some vs)
    (hfill : allFilled W vs = .ok false)
    (hmt : is_modified_terminal p.expression = false)
    (hsops : computeSops Vsym e2i p.expression.operands = .ok sops)
    (hwops : computeWops W sops = .ok wops)
    (hlen : vs.length ≠ (recon p.expression wops).length) :
    processNode recon Vsym e2i W i p = .error .runtimeSymbolCount := by
  unfold processNode
  rw [hvs]
  simp only [liftO, exc_bind_ok]
  rw [hfill]
  simp only [exc_bind_ok, Bool.false_eq_true, if_false]
  rw [hmt]
  simp only [Bool.false_eq_true, if_false]
  rw [hsops]
  simp only [exc_bind_ok]
  rw [hwops]
  simp only [exc_bind_ok]
  rw [if_pos hlen]
  simp only [exc_bind_err]

/-- C8: in `rebuild_with_scalar_subexpressions`, a modified-terminal
node of rank-0 shape (already scalar) manufactures exactly one scalar
expression — the node itself — for its single symbol: the run writes
the original expression into that symbol's empty slot and touches no
other slot.  A symbol sequence of length other than one for such a node
is rejected with the `RuntimeError` "Expecting single symbol for scalar
valued modified terminal.". -/
theorem rebuild_scalar_terminal_roundtrip (recon : Reconstruct)
    (Vsym : List (List Nat)) (e2i : List (Expr × Nat)) (W : Array (Option Expr))
    (i : Nat) (p : Payload) (vs : List Nat)
    (hmt : is_modified_terminal p.expression = true)
    (hsh : p.expression.shape = [])
    (hvs : Vsym.get? i = some vs)
    (hfill : allFilled W vs = .ok false) :
    (vs.length ≠ 1 → processNode recon Vsym e2i W i p = .error .runtimeSingleSymbol) ∧
    (∀ s, vs = [s] →
      processNode recon Vsym e2i W i p = .ok (W.setD s (some p.expression)) ∧
      (W.setD s (some p.expression)).get? s = some (some p.expression) ∧
      ∀ s2, s2 ≠ s → (W.setD s (some p.expression)).get? s2 = W.get? s2) := by
  constructor
  · intro hlen
    unfold processNode
    rw [hvs]
    simp only [liftO, exc_bind_ok]
    rw [hfill]
    simp only [exc_bind_ok, Bool.false_eq_true, if_false]
    rw [hmt]
    simp only [if_true]
    rw [hsh]
    simp only [ne_eq, not_true_eq_false, Bool.false_eq_true, if_false, if_neg]
    rw [if_pos hlen]
    simp only [exc_bind_err]
  · intro s hvss
    subst hvss
    have hW : W.get? s = some none := by
      rw [allFilled_cons] at hfill
      split at hfill
      · exact Except.noConfusion hfill
      · assumption
      · rw [show allFilled W [] = .ok true from rfl] at hfill
        exact absurd (Except.ok.injEq .. ▸ hfill) (by simp)
    refine ⟨?_, setD_get?_eq W (some p.expression) none hW,
      fun s2 hs2 => setD_get?_ne W (some p.expression) (Ne.symm hs2)⟩
    unfold processNode
    rw [hvs]
    simp only [liftO, exc_bind_ok]
    rw [hfill]
    simp only [exc_bind_ok, Bool.false_eq_true, if_false]
    rw [hmt]
    simp only [if_true]
    rw [hsh]
    simp only [ne_eq, not_true_eq_false, Bool.false_eq_true, if_false, if_neg,
      List.length_singleton, if_pos, exc_bind_ok]
    simp only [storeSymbols, List.zip, List.zipWith, storeGo_cons, hW, storeGo_nil]

/-! ## The edge-insertion phase of `build_scalar_graph` -/

theorem addEdgeE_ok {g g2 : ExpressionGraph Nat Payload} {i j : Nat}
    (h : addEdgeE g i j = .ok g2) :
    ∃ oe ie, dictAppend i j g.out_edges = some oe ∧
      dictAppend j i g.in_edges = some ie ∧
      g2 = { g with out_edges := oe, in_edges := ie } := by
  by_cases hc : (alookup i g.nodes).isNone ∨ (alookup j g.nodes).isNone
  · exfalso
    have he : addEdgeE g i j = .error .keyError := by
      unfold addEdgeE ExpressionGraph.add_edge
      rw [if_pos hc]
    rw [he] at h
    exact Except.noConfusion h
  · cases hoe : dictAppend i j g.out_edges with
    | none =>
        exfalso
        have he : addEdgeE g i j = .error .keyError := by
          unfold addEdgeE ExpressionGraph.add_edge
          rw [if_neg hc, hoe]
        rw [he] at h
        exact Except.noConfusion h
    | some oe =>
        cases hie : dictAppend j i g.in_edges with
        | none =>
            exfalso
            have he : addEdgeE g i j = .error .keyError := by
              unfold addEdgeE ExpressionGraph.add_edge
              rw [if_neg hc, hoe, hie]
            rw [he] at h
            exact Except.noConfusion h
        | some ie =>
            have he : addEdgeE g i j = .ok { g with out_edges := oe, in_edges := ie } := by
              unfold addEdgeE ExpressionGraph.add_edge
              rw [if_neg hc, hoe, hie]
            rw [he] at h
            exact ⟨oe, ie, rfl, rfl, (Except.ok.injEq .. ▸ h).symm⟩

theorem edge_inner_fold (js : List Nat) (i : Nat) :
    ∀ g g2 : ExpressionGraph Nat Payload,
      js.foldlM (fun g j => addEdgeE g i j) g = .ok g2 →
      g2.nodes = g.nodes ∧
      (∀ l, alookup i g.out_edges = some l → alookup i g2.out_edges = some (l ++ js)) ∧
      (∀ k, k ≠ i → alookup k g2.out_edges = alookup k g.out_edges) := by
  induction js with
  | nil =>
      intro g g2 h
      rw [List.foldlM_nil] at h
      obtain rfl : g = g2 := Except.ok.injEq .. ▸ h
      exact ⟨rfl, fun l hl => by simpa using hl, fun k _ => rfl⟩
  | cons j js ih =>
      intro g g2 h
      rw [List.foldlM_cons] at h
      cases ha : addEdgeE g i j with
      | error e =>
          rw [ha, exc_bind_err] at h
          exact Except.noConfusion h
      | ok g1 =>
          rw [ha, exc_bind_ok] at h
          obtain ⟨oe, ie, hoe, hie, hg1⟩ := addEdgeE_ok ha
          obtain ⟨hn2, hout2, hne2⟩ := ih g1 g2 h
          refine ⟨by rw [hn2, hg1], ?_, ?_⟩
          · intro l hl
            have h1 : alookup i g1.out_edges = some (l ++ [j]) := by
              rw [hg1]
              show alookup i oe = _
              rw [alookup_dictAppend_self hoe, hl]
              rfl
            have h2 := hout2 (l ++ [j]) h1
            rw [List.append_assoc] at h2
            exact h2
          · intro k hk
            rw [hne2 k hk, hg1]
            show alookup k oe = _
            rw [alookup_dictAppend_ne hk hoe]

theorem edge_outer_fold (rows : List (Nat × List Nat)) :
    ∀ g g2 : ExpressionGraph Nat Payload,
      rows.foldlM (fun g ie => ie.2.foldlM (fun g j => addEdgeE g ie.1 j) g) g = .ok g2 →
      g2.nodes = g.nodes ∧
      (∀ k, k ∉ rows.map Prod.fst → alookup k g2.out_edges = alookup k g.out_edges) ∧
      ((rows.map Prod.fst).Nodup →
        ∀ k edges, (k, edges) ∈ rows → ∀ l, alookup k g.out_edges = some l →
          alookup k g2.out_edges = some (l ++ edges)) := by
  induction rows with
  | nil =>
      intro g g2 h
      rw [List.foldlM_nil] at h
      obtain rfl : g = g2 := Except.ok.injEq .. ▸ h
      exact ⟨rfl, fun k _ => rfl, fun _ k edges hmem => by simp at hmem⟩
  | cons r rest ih =>
      obtain ⟨k0, es⟩ := r
      intro g g2 h
      rw [List.foldlM_cons] at h
      cases ha : es.foldlM (fun g j => addEdgeE g k0 j) g with
      | error e =>
          rw [ha, exc_bind_err] at h
          exact Except.noConfusion h
      | ok g1 =>
          rw [ha, exc_bind_ok] at h
          obtain ⟨hn1, hout1, hne1⟩ := edge_inner_fold es k0 g g1 ha
          obtain ⟨hn2, hnotin2, hmain2⟩ := ih g1 g2 h
          refine ⟨by rw [hn2, hn1], ?_, ?_⟩
          · intro k hk
            simp only [List.map_cons, List.mem_cons] at hk
            push_neg at hk
            rw [hnotin2 k hk.2, hne1 k hk.1]
          · intro hnd k edges hmem l hl
            simp only [List.map_cons, List.nodup_cons] at hnd
            rcases List.mem_cons.1 hmem with heq | hmem2
            · obtain ⟨rfl, rfl⟩ := Prod.mk.injEq .. ▸ heq
              rw [hnotin2 k hnd.1]
              exact hout1 l hl
            · have hkne : k ≠ k0 := by
                rintro rfl
                exact hnd.1 (List.mem_map.2 ⟨(k, edges), hmem2, rfl⟩)
              refine hmain2 hnd.2 k edges hmem2 l ?_
              rw [hne1 k hkne]
              exact hl

theorem vdepsRows_ok (e2i : List (Expr × Nat)) :
    ∀ (nodes : List (Nat × Payload)) (rows : List (List Nat)),
      vdepsRows e2i nodes = .ok rows →
      rows.length = nodes.length ∧
      ∀ (n : Nat) (iv : Nat × Payload), nodes[n]? = some iv →
        ∃ row, rows[n]? = some row ∧
          (noDeps iv.2.expression = true → row = []) ∧
          (noDeps iv.2.expression = false →
            operandIdxs e2i iv.2.expression.operands = .ok row) := by
  intro nodes
  induction nodes with
  | nil =>
      intro rows h
      rw [show vdepsRows e2i [] = .ok [] from rfl] at h
      obtain rfl : ([] : List (List Nat)) = rows := Except.ok.injEq .. ▸ h
      exact ⟨rfl, fun n iv hiv => by simp at hiv⟩
  | cons iv0 rest ih =>
      intro rows h
      rw [show vdepsRows e2i (iv0 :: rest) =
        (do
          let row ←
            if noDeps iv0.2.expression then .ok []
            else operandIdxs e2i iv0.2.expression.operands
          let r ← vdepsRows e2i rest
          .ok (row :: r)) from rfl] at h
      by_cases hnd : noDeps iv0.2.expression = true
      · simp only [if_pos hnd, exc_bind_ok] at h
        cases hr : vdepsRows e2i rest with
        | error e =>
            simp only [hr, exc_bind_err] at h
            exact Except.noConfusion h
        | ok r =>
            simp only [hr, exc_bind_ok] at h
            obtain rfl : ([] : List Nat) :: r = rows := Except.ok.injEq .. ▸ h
            obtain ⟨hlen, hall⟩ := ih r hr
            refine ⟨by simp [hlen], ?_⟩
            intro n iv hiv
            cases n with
            | zero =>
                simp only [List.getElem?_cons_zero] at hiv
                obtain rfl := Option.some.injEq .. ▸ hiv
                refine ⟨[], by simp, fun _ => rfl, fun hc => ?_⟩
                rw [hnd] at hc
                exact Bool.noConfusion hc
            | succ n2 =>
                simp only [List.getElem?_cons_succ] at hiv
                obtain ⟨row, hrow2, hp1, hp2⟩ := hall n2 iv hiv
                exact ⟨row, by simpa using hrow2, hp1, hp2⟩
      · have hndf : noDeps iv0.2.expression = false := by
          rwa [Bool.not_eq_true] at hnd
        simp only [if_neg hnd] at h
        cases hop : operandIdxs e2i iv0.2.expression.operands with
        | error e =>
            simp only [hop, exc_bind_err] at h
            exact Except.noConfusion h
        | ok row0 =>
            simp only [hop, exc_bind_ok] at h
            cases hr : vdepsRows e2i rest with
            | error e =>
                simp only [hr, exc_bind_err] at h
                exact Except.noConfusion h
            | ok r =>
                simp only [hr, exc_bind_ok] at h
                obtain rfl : row0 :: r = rows := Except.ok.injEq .. ▸ h
                obtain ⟨hlen, hall⟩ := ih r hr
                refine ⟨by simp [hlen], ?_⟩
                intro n iv hiv
                cases n with
                | zero =>
                    simp only [List.getElem?_cons_zero] at hiv
                    obtain rfl := Option.some.injEq .. ▸ hiv
                    refine ⟨row0, by simp, fun hc => ?_, fun _ => hop⟩
                    rw [hndf] at hc
                    exact Bool.noConfusion hc
                | succ n2 =>
                    simp only [List.getElem?_cons_succ] at hiv
                    obtain ⟨row, hrow2, hp1, hp2⟩ := hall n2 iv hiv
                    exact ⟨row, by simpa using hrow2, hp1, hp2⟩

theorem mem_of_getElem?_eq {α : Type} {l : List α} {i : Nat} {a : α}
    (h : l[i]? = some a) : a ∈ l := by
  have hi : i < l.length := by
    by_contra hc
    rw [List.getElem?_eq_none (le_of_not_lt hc)] at h
    exact Option.noConfusion h
  rw [List.getElem?_eq_getElem hi] at h
  obtain rfl := Option.some.injEq .. ▸ h
  exact List.getElem_mem hi

theorem alookup_dense_get {β : Type} {l : List (Nat × β)}
    (hd : l.map Prod.fst = List.range l.length) {i : Nat} {p : β}
    (h : alookup i l = some p) : l[i]? = some (i, p) := by
  rw [alookup_dense hd i] at h
  cases hq : l[i]? with
  | none =>
      rw [hq] at h
      exact Option.noConfusion h
  | some q =>
      rw [hq] at h
      have h2 : q.2 = p := Option.some.injEq .. ▸ h
      have hi : i < l.length := by
        by_contra hc
        rw [List.getElem?_eq_none (le_of_not_lt hc)] at hq
        exact Option.noConfusion hq
      have hfst : q.1 = i := by
        have h3 := congrArg (fun t => t[i]?) hd
        simp only [List.getElem?_map, hq, List.getElem?_range hi, Option.map_some] at h3
        exact Option.some.injEq .. ▸ h3
      rw [← h2, ← hfst]

/-- A successful `build_graph_vertices` implies the root was not of a
skipped class (a skipped root never enters the map, so the target
lookup raises `KeyError`). -/
theorem build_graph_vertices_isSome_not_skipped {expr : Expr} {skip : Expr → Bool}
    {skipTM : Bool} {g : ExprGraph}
    (h : build_graph_vertices expr skip skipTM = some g) :
    skippedCls skip expr = false := by
  by_cases hsk : skippedCls skip expr = false
  · exact hsk
  · exfalso
    rw [Bool.not_eq_false] at hsk
    have halk : alookup expr
        (count_nodes_with_unique_post_traversal expr skip skipTM) = none := by
      rw [alookup_eq_none_iff]
      intro hmem
      obtain ⟨p, hp, hpe⟩ := List.mem_map.1 hmem
      have h2 := (count_nodes_inv expr skip skipTM).noSkipped p hp
      rw [hpe, hsk] at h2
      exact Bool.noConfusion h2
    unfold build_graph_vertices at h
    simp only [halk] at h
    exact Option.noConfusion h

/-- Decomposition of a successful `build_scalar_graph` run into its
stages. -/
theorem build_scalar_graph_ok {recon : Reconstruct} {vn : ExprGraph → ValueNumbering}
    {expr : Expr} {g : ExprGraph}
    (h : build_scalar_graph recon vn expr = .ok g) :
    ∃ G1 se G2 V_deps Gfin,
      build_graph_vertices expr (fun e => e.isMultiIndex) false = some G1 ∧
      rebuild_with_scalar_subexpressions recon vn G1 = .ok (some se) ∧
      build_graph_vertices se (fun _ => false) true = some G2 ∧
      computeVDeps G2 = .ok V_deps ∧
      V_deps.enum.foldlM
        (fun g ie => ie.2.foldlM (fun g j => addEdgeE g ie.1 j) g) G2.G = .ok Gfin ∧
      g = { G2 with G := Gfin } := by
  unfold build_scalar_graph at h
  cases h1 : build_graph_vertices expr (fun e => e.isMultiIndex) false with
  | none =>
      simp only [h1, liftO, exc_bind_err] at h
      exact Except.noConfusion h
  | some G1 =>
      simp only [h1, liftO, exc_bind_ok] at h
      cases h2 : rebuild_with_scalar_subexpressions recon vn G1 with
      | error e =>
          simp only [h2, exc_bind_err] at h
          exact Except.noConfusion h
      | ok seq =>
          simp only [h2, exc_bind_ok] at h
          cases seq with
          | none =>
              simp only [liftO, exc_bind_err] at h
              exact Except.noConfusion h
          | some se =>
              simp only [liftO, exc_bind_ok] at h
              cases h3 : build_graph_vertices se (fun _ => false) true with
              | none =>
                  simp only [h3, liftO, exc_bind_err] at h
                  exact Except.noConfusion h
              | some G2 =>
                  simp only [h3, liftO, exc_bind_ok] at h
                  cases h4 : computeVDeps G2 with
                  | error e =>
                      simp only [h4, exc_bind_err] at h
                      exact Except.noConfusion h
                  | ok V_deps =>
                      simp only [h4, exc_bind_ok] at h
                      cases h5 : V_deps.enum.foldlM
                          (fun g ie => ie.2.foldlM (fun g j => addEdgeE g ie.1 j) g)
                          G2.G with
                      | error e =>
                          simp only [h5, exc_bind_err] at h
                          exact Except.noConfusion h
                      | ok Gfin =>
                          simp only [h5, exc_bind_ok] at h
                          exact ⟨G1, se, G2, V_deps, Gfin, rfl, h2, h3, h4, h5,
                            (Except.ok.injEq .. ▸ h).symm⟩

/-- C7: in the final graph built by `build_scalar_graph`, a node that
is a terminal or a terminal modifier without free indices has an empty
out-edge list; every other node's out-edge list is, verbatim and in
order, the list `G.e2i[o]` of its operands' indices (so a repeated
operand yields repeated parallel edges — the edges are appended in
operand order with no sorting and no deduplication). -/
theorem final_graph_edges_verbatim (recon : Reconstruct)
    (vn : ExprGraph → ValueNumbering) (expr : Expr) (g : ExprGraph)
    (h : build_scalar_graph recon vn expr = .ok g) :
    ∀ i p, alookup i g.G.nodes = some p →
      (noDeps p.expression = true → alookup i g.G.out_edges = some []) ∧
      (noDeps p.expression = false →
        ∃ l, operandIdxs g.e2i p.expression.operands = .ok l ∧
          alookup i g.G.out_edges = some l) := by
  obtain ⟨G1, se, G2, V_deps, Gfin, h1, h2, h3, h4, h5, rfl⟩ := build_scalar_graph_ok h
  have hsk2 : skippedCls (fun _ => false) se = false :=
    build_graph_vertices_isSome_not_skipped h3
  obtain ⟨G2x, hbgx, he2i, hlen, hkeys, hout, hin, hroot, hfwd, hbwd⟩ :=
    build_graph_vertices_spec se (fun _ => false) true hsk2
  obtain rfl : G2 = G2x := by
    rw [h3] at hbgx
    exact Option.some.injEq .. ▸ hbgx
  obtain ⟨hnodesF, hnotin, hmain⟩ := edge_outer_fold V_deps.enum G2.G Gfin h5
  unfold computeVDeps at h4
  obtain ⟨hVlen, hVrows⟩ := vdepsRows_ok G2.e2i G2.G.nodes V_deps h4
  intro i p hp
  have hp2 : alookup i Gfin.nodes = some p := hp
  rw [hnodesF] at hp2
  have hpos : G2.G.nodes[i]? = some (i, p) :=
    alookup_dense_get (by rw [hkeys, hlen]) hp2
  obtain ⟨row, hVget, hrowND, hrowOP⟩ := hVrows i (i, p) hpos
  have henum : V_deps.enum[i]? = some (i, row) := by
    rw [List.getElem?_enum, hVget]
    rfl
  have hmemrow : (i, row) ∈ V_deps.enum := mem_of_getElem?_eq henum
  have hiN : i < G2.e2i.length := by
    have h6 : (i, p) ∈ G2.G.nodes := mem_of_getElem?_eq hpos
    have h7 : i ∈ G2.G.nodes.map Prod.fst := List.mem_map.2 ⟨(i, p), h6, rfl⟩
    rw [hkeys] at h7
    exact List.mem_range.1 h7
  have hinit : alookup i G2.G.out_edges = some [] := by
    rw [hout]
    apply alookup_of_mem_nodup
    · exact List.mem_map.2 ⟨i, List.mem_range.2 hiN, rfl⟩
    · rw [List.map_map]
      have hcomp : (Prod.fst ∘ fun i => ((i, [])  : Nat × List Nat)) = id := rfl
      rw [hcomp, List.map_id]
      exact List.nodup_range _
  have hndrows : (V_deps.enum.map Prod.fst).Nodup := by
    rw [List.enum_map_fst]
    exact List.nodup_range _
  have hfin : alookup i Gfin.out_edges = some ([] ++ row) :=
    hmain hndrows i row hmemrow [] hinit
  rw [List.nil_append] at hfin
  constructor
  · intro hnd
    rw [hrowND hnd] at hfin
    exact hfin
  · intro hnd
    exact ⟨row, hrowOP hnd, hfin⟩

/-! ## The concrete scenario: `a*b + a*b` over scalar terminals -/

/-- Scalar terminal `a`. -/
def aT : Expr := .term .plain 0 [] []

/-- Scalar terminal `b`. -/
def bT : Expr := .term .plain 1 [] []

/-- The scalar product `a*b`. -/
def prodT : Expr := .oper .plainOper 10 [] [] [aT, bT]

/-- The sum `a*b + a*b`, with the product object shared. -/
def sumT : Expr := .oper .plainOper 11 [] [] [prodT, prodT]

/-- The enumerator map of the scenario. -/
def L1scen : List (Expr × Nat) := [(aT, 0), (bT, 1), (prodT, 2), (sumT, 3)]

/-- The vertex payloads of the scenario. -/
def nodesScen : List (Nat × Payload) :=
  [(0, ⟨aT, false⟩), (1, ⟨bT, false⟩), (2, ⟨prodT, false⟩), (3, ⟨sumT, true⟩)]

/-- Empty edge dicts over the four vertices. -/
def zeroEdges : List (Nat × List Nat) := [(0, []), (1, []), (2, []), (3, [])]

/-- The vertex graph of the scenario (both passes coincide). -/
def G1scen : ExprGraph := ⟨L1scen, ⟨nodesScen, zeroEdges, zeroEdges⟩⟩

/-- The final scenario graph after edge insertion. -/
def gScen : ExprGraph :=
  ⟨L1scen, ⟨nodesScen,
    [(0, []), (1, []), (2, [0, 1]), (3, [2, 2])],
    [(0, [2]), (1, [2]), (2, [3, 3]), (3, [])]⟩⟩

theorem count_scen1 : count_nodes_with_unique_post_traversal sumT
    (fun e => e.isMultiIndex) false = L1scen := by
  simp [count_nodes_with_unique_post_traversal, visit, visitOps, getops, skippedCls,
    aT, bT, prodT, sumT, L1scen, alookup, Expr.isTerminal, Expr.isLabel,
    Expr.isMultiIndex, Expr.operands, Expr.isTerminalModifier, Expr.freeIndices]

theorem count_scen2 : count_nodes_with_unique_post_traversal sumT
    (fun _ => false) true = L1scen := by
  simp [count_nodes_with_unique_post_traversal, visit, visitOps, getops, skippedCls,
    aT, bT, prodT, sumT, L1scen, alookup, Expr.isTerminal, Expr.isLabel,
    Expr.isMultiIndex, Expr.operands, Expr.isTerminalModifier, Expr.freeIndices]

theorem bgv_scen1 : build_graph_vertices sumT (fun e => e.isMultiIndex) false
    = some G1scen := by
  have hms : L1scen.mergeSort (fun a b => decide (a.2 ≤ b.2)) = L1scen :=
    List.mergeSort_of_sorted (by decide)
  unfold build_graph_vertices
  rw [count_scen1]
  simp only [hms]
  rfl

theorem bgv_scen2 : build_graph_vertices sumT (fun _ => false) true
    = some G1scen := by
  have hms : L1scen.mergeSort (fun a b => decide (a.2 ≤ b.2)) = L1scen :=
    List.mergeSort_of_sorted (by decide)
  unfold build_graph_vertices
  rw [count_scen2]
  simp only [hms]
  rfl

theorem rebuild_scen : rebuild_with_scalar_subexpressions specReconstruct
    specValueNumberer G1scen = .ok (some sumT) := rfl

theorem bsg_scen : build_scalar_graph specReconstruct specValueNumberer sumT
    = .ok gScen := by
  unfold build_scalar_graph
  simp only [bgv_scen1, liftO, exc_bind_ok, rebuild_scen, bgv_scen2]
  rfl

/-- C2: the enumerator assigns every expression object exactly one
index, no matter how many paths reach it (its map has no duplicate
keys); concretely, on `a*b + a*b` it yields the single shared node
`a*b` at index 2 among exactly four nodes, and in the final graph of
`build_scalar_graph` the addition's out-edge list references that
single shared index twice. -/
theorem dedup_unique_index_and_shared_product :
    (∀ (expr : Expr) (skip : Expr → Bool) (skipTM : Bool) (e : Expr) (i j : Nat),
      (e, i) ∈ count_nodes_with_unique_post_traversal expr skip skipTM →
      (e, j) ∈ count_nodes_with_unique_post_traversal expr skip skipTM → i = j) ∧
    count_nodes_with_unique_post_traversal sumT (fun e => e.isMultiIndex) false
      = L1scen ∧
    build_scalar_graph specReconstruct specValueNumberer sumT = .ok gScen ∧
    alookup prodT gScen.e2i = some 2 ∧
    alookup 3 gScen.G.out_edges = some [2, 2] := by
  refine ⟨?_, count_scen1, bsg_scen, by decide, by decide⟩
  intro expr skip skipTM e i j h1 h2
  exact alookup_unique (count_nodes_inv expr skip skipTM).nodup h1 h2

/-! ## Witnesses: the claim theorems applied at concrete inputs -/

theorem enumerator_dense_and_ordered_witness :
    (0 : Nat) < 2 ∧
    (count_nodes_with_unique_post_traversal sumT (fun e => e.isMultiIndex) false).map
        Prod.snd
      = List.range (count_nodes_with_unique_post_traversal sumT
          (fun e => e.isMultiIndex) false).length := by
  constructor
  · exact (enumerator_dense_and_ordered sumT (fun e => e.isMultiIndex) false).2 prodT 2
      (by rw [count_scen1]; decide) (by decide) aT (by decide) 0
      (by rw [count_scen1]; decide)
  · exact (enumerator_dense_and_ordered sumT (fun e => e.isMultiIndex) false).1

theorem dedup_unique_index_witness :
    (2 : Nat) = 2 ∧ alookup 3 gScen.G.out_edges = some [2, 2] := by
  constructor
  · exact dedup_unique_index_and_shared_product.1 sumT (fun e => e.isMultiIndex) false
      prodT 2 2 (by rw [count_scen1]; decide) (by rw [count_scen1]; decide)
  · exact dedup_unique_index_and_shared_product.2.2.2.2

/-- A one-node graph used to exercise the container claims. -/
def gEx : ExpressionGraph Nat Nat := ⟨[(0, 5)], [(0, [])], [(0, [])]⟩

theorem add_edge_keyerror_or_appends_witness :
    gEx.add_edge 0 1 = (gEx, some .keyError) ∧ (gEx.add_edge 0 0).2 = none := by
  have hwf : ∀ k, (alookup k gEx.nodes).isSome →
      (alookup k gEx.out_edges).isSome ∧ (alookup k gEx.in_edges).isSome := by
    intro k hk
    by_cases h0 : (0 : Nat) = k
    · subst h0
      exact ⟨by decide, by decide⟩
    · exfalso
      rw [show alookup k gEx.nodes = none by simp [gEx, alookup, h0]] at hk
      exact Bool.noConfusion hk
  constructor
  · exact (add_edge_keyerror_or_appends gEx 0 1 hwf).1 (Or.inr (by decide))
  · obtain ⟨g2, hg2, _⟩ :=
      (add_edge_keyerror_or_appends gEx 0 0 hwf).2 (by decide) (by decide)
    rw [hg2]

/-- A graph with existing edge lists used to exercise `add_node`. -/
def gEx2 : ExpressionGraph Nat Nat := ⟨[(0, 5)], [(0, [1, 2])], [(0, [3])]⟩

theorem add_node_resets_witness :
    alookup 0 (gEx2.add_node 0 7).nodes = some 7 ∧
    alookup 0 (gEx2.add_node 0 7).out_edges = some [] ∧
    alookup 1 (gEx2.add_node 0 7).out_edges = alookup 1 gEx2.out_edges := by
  obtain ⟨h1, h2, h3, h4⟩ := add_node_resets gEx2 0 7
  exact ⟨h1, h2, (h4 1 (by decide)).2.1⟩

/-- A reconstruction rule that always returns no scalar expressions. -/
def reconNull : Reconstruct := fun _ _ => []

theorem rebuild_arity_mismatch_raises_witness :
    processNode reconNull [[0], [1]] [(aT, 0), (bT, 1)]
      (Array.mkArray 2 (none : Option Expr)) 0 ⟨prodT, false⟩
      = .error .runtimeSymbolCount := by
  exact rebuild_arity_mismatch_raises reconNull [[0], [1]] [(aT, 0), (bT, 1)]
    (Array.mkArray 2 none) 0 ⟨prodT, false⟩ [0] [[0], [1]] [[none], [none]]
    rfl rfl rfl rfl rfl (by decide)

theorem symbol_table_write_once_witness :
    ((([some aT, none] : List (Option Expr)).toArray.setD 1 (some bT)).get? 0
        = some (some aT)) ∧
    (storeSymbols (([some aT] : List (Option Expr)).toArray) [0] [bT]
        = .error .assertionError) := by
  constructor
  · have hok : storeSymbols (([some aT, none] : List (Option Expr)).toArray) [1] [bT]
        = .ok ((([some aT, none] : List (Option Expr)).toArray).setD 1 (some bT)) := rfl
    exact ((symbol_table_write_once (([some aT, none] : List (Option Expr)).toArray)
      [1] [bT]).1 0 aT rfl).1 _ hok
  · obtain ⟨err, herr⟩ :=
      ((symbol_table_write_once (([some aT] : List (Option Expr)).toArray)
        [0] [bT]).1 0 aT rfl).2 (by decide)
    rw [herr]
    have : err = .assertionError := by
      rw [show storeSymbols (([some aT] : List (Option Expr)).toArray) [0] [bT]
        = .error .assertionError from rfl] at herr
      exact (Except.error.injEq .. ▸ herr).symm
    rw [this]

theorem enumerator_deterministic_witness :
    L1scen = L1scen ∧ alookup prodT L1scen = alookup prodT L1scen := by
  have h := enumerator_deterministic sumT (fun e => e.isMultiIndex) false
    L1scen L1scen count_scen1.symm count_scen1.symm
  exact ⟨h.1, h.2 prodT⟩

theorem final_graph_edges_verbatim_witness :
    alookup 3 gScen.G.out_edges = some [2, 2] ∧
    alookup 0 gScen.G.out_edges = some [] := by
  have h := final_graph_edges_verbatim specReconstruct specValueNumberer sumT gScen
    bsg_scen
  constructor
  · obtain ⟨l, hl, hout⟩ := (h 3 ⟨sumT, true⟩ (by decide)).2 (by decide)
    have h2 : operandIdxs gScen.e2i (Payload.expression ⟨sumT, true⟩).operands
        = .ok [2, 2] := rfl
    rw [h2] at hl
    obtain rfl : [2, 2] = l := Except.ok.injEq .. ▸ hl
    exact hout
  · exact (h 0 ⟨aT, false⟩ (by decide)).1 (by decide)

theorem rebuild_scalar_terminal_roundtrip_witness :
    processNode specReconstruct [[0]] [] (Array.mkArray 1 (none : Option Expr)) 0
        ⟨aT, false⟩
      = .ok ((Array.mkArray 1 (none : Option Expr)).setD 0 (some aT)) ∧
    processNode specReconstruct [[0, 1]] [] (Array.mkArray 2 (none : Option Expr)) 0
        ⟨aT, false⟩
      = .error .runtimeSingleSymbol := by
  constructor
  · exact ((rebuild_scalar_terminal_roundtrip specReconstruct [[0]] []
      (Array.mkArray 1 none) 0 ⟨aT, false⟩ [0] rfl rfl rfl rfl).2 0 rfl).1
  · exact (rebuild_scalar_terminal_roundtrip specReconstruct [[0, 1]] []
      (Array.mkArray 2 none) 0 ⟨aT, false⟩ [0, 1] rfl rfl rfl rfl).1 (by decide)

theorem build_graph_vertices_single_target_witness :
    alookup (G1scen.G.number_of_nodes - 1) G1scen.G.nodes = some ⟨sumT, true⟩ := by
  obtain ⟨g, hbg, h1, _, _, _⟩ :=
    build_graph_vertices_single_target sumT (fun e => e.isMultiIndex) false (by decide)
  rw [bgv_scen1] at hbg
  obtain rfl : G1scen = g := Option.some.injEq .. ▸ hbg
  exact h1
